import Mathlib

/-!
Verification of the Ren'Py `.rpt` translation-template generator (`rpt.py`).

Strings are modelled as `List Char` (Python `str`), byte strings as `List Nat`
(each element a byte value). Python's whitespace set for `str.strip`,
`str.rstrip` and the regex class `\s` coincides on the ASCII range with the six
characters modelled by `isSpaceChar`; all inputs in scope are ASCII, so the
extra Unicode whitespace characters are not modelled.

Regex scanning (`re.finditer`) is modelled by deterministic left-to-right
scanners. For each pattern of the source, the backtracking behaviour was
analysed: every greedy or lazy sub-match in these patterns is followed by a
literal that cannot occur inside the repeated class, so each pattern admits an
equivalent deterministic scanner, which is what the matcher functions below
implement. `re.MULTILINE` anchors (`^`) are modelled by attempting a match only
at the start of the text and directly after each newline, and a successful
match consumes its span (non-overlapping semantics), exactly as `finditer`.
Loops whose scan position jumps are written with an explicit fuel argument
initialised to the input length, so that all definitions reduce by evaluation;
the fuel never runs out because every step consumes at least one character.
-/

/-- Whitespace characters of Python `str.strip()` / regex `\s` (ASCII range). -/
def isSpaceChar (c : Char) : Bool :=
  c == ' ' || c == '\t' || c == '\n' || c == '\r' || c == '\x0b' || c == '\x0c'

/-- Word characters of the regex class `\w` (ASCII range). -/
def isWordChar (c : Char) : Bool :=
  (('a' ≤ c) && (c ≤ 'z')) || (('A' ≤ c) && (c ≤ 'Z')) ||
  (('0' ≤ c) && (c ≤ '9')) || c == '_'

/-- Python `str.lstrip()`. -/
def pyLstrip (l : List Char) : List Char := l.dropWhile isSpaceChar

/-- Python `str.rstrip()`. -/
def pyRstrip (l : List Char) : List Char := (l.reverse.dropWhile isSpaceChar).reverse

/-- Python `str.strip()`. -/
def pyStrip (l : List Char) : List Char := pyRstrip (pyLstrip l)

/-- Python `s.strip() == ""`: every character is whitespace. -/
def isBlankL (l : List Char) : Bool := l.all isSpaceChar

/-- Line-break characters of Python `str.splitlines()` (ASCII range; the
characters `\x85`, ` `, ` ` also break lines in Python but cannot
occur in the ASCII inputs in scope). -/
def isLineBrk (c : Char) : Bool :=
  c == '\n' || c == '\r' || c == '\x0b' || c == '\x0c' ||
  c == '\x1c' || c == '\x1d' || c == '\x1e'

/-- Helper for `pySplitlines`; `cur` is the current line, reversed. -/
def splitlinesAux (cur : List Char) : List Char → List (List Char)
  | [] => if cur.isEmpty then [] else [cur.reverse]
  | '\r' :: '\n' :: rest => cur.reverse :: splitlinesAux [] rest
  | c :: rest =>
    if isLineBrk c then cur.reverse :: splitlinesAux [] rest
    else splitlinesAux (c :: cur) rest

/-- Python `str.splitlines()` (line terminators removed). -/
def pySplitlines (s : List Char) : List (List Char) := splitlinesAux [] s

/-- Helper for `readlines`; `cur` is the current line, reversed. -/
def readlinesAux (cur : List Char) : List Char → List (List Char)
  | [] => if cur.isEmpty then [] else [cur.reverse]
  | c :: rest =>
    if c = '\n' then (cur.reverse ++ ['\n']) :: readlinesAux [] rest
    else readlinesAux (c :: cur) rest

/-- Split text into lines, each keeping its trailing `'\n'`
(Python `file.readlines()` applied after newline translation). -/
def readlines (s : List Char) : List (List Char) := readlinesAux [] s

/-- Universal-newline translation performed by `open(path, encoding="utf-8")`
in text mode: `"\r\n"` and lone `"\r"` both become `"\n"`. -/
def normalizeNl : List Char → List Char
  | [] => []
  | '\r' :: '\n' :: rest => '\n' :: normalizeNl rest
  | '\r' :: rest => '\n' :: normalizeNl rest
  | c :: rest => c :: normalizeNl rest

/-- Lines obtained by `open(path, encoding="utf-8").readlines()`:
universal-newline translation followed by splitting. -/
def pyReadlines (s : List Char) : List (List Char) := readlines (normalizeNl s)

/-- Python `s.replace(str(c), r)` for a single-character pattern `c`:
each occurrence of `c` is replaced by `r` independently. -/
def replaceChar (c : Char) (r : List Char) : List Char → List Char
  | [] => []
  | x :: xs => (if x = c then r else [x]) ++ replaceChar c r xs

/-- Source `quote` (rpt.py lines 14-20): escape backslashes and newlines for
the .rpt format: `s.replace("\\", "\\\\").replace("\n", "\\n")`. -/
def quote (s : List Char) : List Char :=
  replaceChar '\n' ['\\', 'n'] (replaceChar '\\' ['\\', '\\'] s)

/-- Per-character description of the escaping transform (spec wording:
backslash becomes doubled backslash, newline becomes backslash-n, every other
character is unchanged). Compared against `quote` in the C5 theorem. -/
def quoteChar (c : Char) : List Char :=
  if c = '\\' then ['\\', '\\'] else if c = '\n' then ['\\', 'n'] else [c]

/-- `lines[i].replace('\n', '\r\n')` of `deduplicate_rpt` (rpt.py line 100). -/
def crlfL (l : List Char) : List Char := replaceChar '\n' ['\r', '\n'] l

/-- UTF-8 encoding of one code point. -/
def utf8Char (n : Nat) : List Nat :=
  if n < 128 then [n]
  else if n < 2048 then [192 + n / 64, 128 + n % 64]
  else if n < 65536 then [224 + n / 4096, 128 + (n / 64) % 64, 128 + n % 64]
  else [240 + n / 262144, 128 + (n / 4096) % 64, 128 + (n / 64) % 64, 128 + n % 64]

/-- Python `s.encode("utf-8")`: bytes of the UTF-8 encoding. -/
def utf8Encode : List Char → List Nat
  | [] => []
  | c :: rest => utf8Char c.toNat ++ utf8Encode rest

/-- Value of an ASCII hex-digit byte. -/
def hexDigitVal (b : Nat) : Option Nat :=
  if 48 ≤ b ∧ b ≤ 57 then some (b - 48)
  else if 97 ≤ b ∧ b ≤ 102 then some (b - 87)
  else if 65 ≤ b ∧ b ≤ 70 then some (b - 55)
  else none

/-- Octal-digit byte test. -/
def isOctB (b : Nat) : Bool := 48 ≤ b && b ≤ 55

/-- Python `bytes.decode("unicode_escape")`, modelled on byte input, producing
the sequence of resulting code points, or `none` where CPython raises
`UnicodeDecodeError` (trailing backslash, malformed `\x`/`\u`/`\U`, code point
above 0x10FFFF). Bytes outside escape sequences decode as their own value
(Latin-1 behaviour of this codec). Named escapes `\N{...}`, which CPython
resolves through the Unicode name database, are modelled as a decode failure;
no input in scope contains them. Byte values: 10 `\n`, 34 `"`, 39 quote,
85 `U`, 92 backslash, 97 `a`, 98 `b`, 102 `f`, 110 `n`, 114 `r`, 116 `t`,
117 `u`, 118 `v`, 120 `x`, 78 `N`. -/
def escStep : List Nat → Option (List Nat × List Nat)
  | [] => none
  | e :: r =>
    if e = 10 then some ([], r)
    else if e = 92 then some ([92], r)
    else if e = 39 then some ([39], r)
    else if e = 34 then some ([34], r)
    else if e = 97 then some ([7], r)
    else if e = 98 then some ([8], r)
    else if e = 102 then some ([12], r)
    else if e = 110 then some ([10], r)
    else if e = 114 then some ([13], r)
    else if e = 116 then some ([9], r)
    else if e = 118 then some ([11], r)
    else if isOctB e then
      match r with
      | d2 :: r2 =>
        if isOctB d2 then
          match r2 with
          | d3 :: r3 =>
            if isOctB d3 then
              some ([(e - 48) * 64 + (d2 - 48) * 8 + (d3 - 48)], r3)
            else some ([(e - 48) * 8 + (d2 - 48)], r2)
          | [] => some ([(e - 48) * 8 + (d2 - 48)], r2)
        else some ([e - 48], r)
      | [] => some ([e - 48], r)
    else if e = 120 then
      match r with
      | h1 :: h2 :: r2 =>
        match hexDigitVal h1, hexDigitVal h2 with
        | some x, some y => some ([16 * x + y], r2)
        | _, _ => none
      | _ => none
    else if e = 117 then
      match r with
      | h1 :: h2 :: h3 :: h4 :: r2 =>
        match hexDigitVal h1, hexDigitVal h2, hexDigitVal h3, hexDigitVal h4 with
        | some x1, some x2, some x3, some x4 =>
          some ([4096 * x1 + 256 * x2 + 16 * x3 + x4], r2)
        | _, _, _, _ => none
      | _ => none
    else if e = 85 then
      match r with
      | h1 :: h2 :: h3 :: h4 :: h5 :: h6 :: h7 :: h8 :: r2 =>
        match hexDigitVal h1, hexDigitVal h2, hexDigitVal h3, hexDigitVal h4,
              hexDigitVal h5, hexDigitVal h6, hexDigitVal h7, hexDigitVal h8 with
        | some x1, some x2, some x3, some x4, some x5, some x6, some x7, some x8 =>
          let v := ((((((x1 * 16 + x2) * 16 + x3) * 16 + x4) * 16 + x5) * 16 + x6)
            * 16 + x7) * 16 + x8
          if v <= 1114111 then some ([v], r2) else none
        | _, _, _, _, _, _, _, _ => none
      | _ => none
    else if e = 78 then none
    else some ([92, e], r)

/-- Decode loop: bytes outside escapes decode as their own value; a byte 92
starts an escape sequence handled by `escStep`. Fuel is the byte count, spent
one per step while at least one byte is consumed, so the fuel-exhausted branch
is unreachable. -/
def uescapeF : Nat → List Nat → Option (List Nat)
  | _, [] => some []
  | 0, _ :: _ => none
  | Nat.succ fuel, b :: rest =>
    if b = 92 then
      match escStep rest with
      | none => none
      | some (out, r2) => (uescapeF fuel r2).map (out ++ ·)
    else (uescapeF fuel rest).map (b :: ·)

def uescape (l : List Nat) : Option (List Nat) := uescapeF l.length l

/-- Printable ASCII character test (code points 0x20 to 0x7E). -/
def printableAscii (c : Char) : Bool := 32 ≤ c.toNat && c.toNat ≤ 126

/-- Attempt of the screens pattern `(label|textbutton)\s+_\("([^"]+)"\)`
(rpt.py line 82) at the start of `s`: on success, captured string and the text
after the match. The alternation tries `label` first; the two keywords start
with different letters, and each greedy sub-match (`\s+`, `[^"]+`) is followed
by a character its class excludes, so the match is deterministic. -/
def matchScreenAt (s : List Char) : Option (List Char × List Char) :=
  let kw : Option (List Char) :=
    if List.isPrefixOf "label".toList s then some (s.drop 5)
    else if List.isPrefixOf "textbutton".toList s then some (s.drop 10)
    else none
  match kw with
  | none => none
  | some s1 =>
    match s1 with
    | [] => none
    | c :: _ =>
      if isSpaceChar c then
        let s2 := s1.dropWhile isSpaceChar
        if List.isPrefixOf "_(\x22".toList s2 then
          let s3 := s2.drop 3
          let cap := s3.takeWhile (fun c => c != '"')
          if cap.isEmpty then none
          else
            match s3.dropWhile (fun c => c != '"') with
            | '"' :: ')' :: s4 => some (cap, s4)
            | _ => none
        else none
      else none

/-- Unanchored scan loop of `re.finditer` for the screens pattern: try a match
at every position left to right, consuming matched spans (fuel = remaining
length, spent one per step; a match always consumes at least one character). -/
def screenScan : Nat → List Char → List (List Char)
  | 0, _ => []
  | Nat.succ fuel, s =>
    match s with
    | [] => []
    | _ :: rest =>
      match matchScreenAt s with
      | some (cap, after) => cap :: screenScan fuel after
      | none => screenScan fuel rest

/-- Source `extract_screen_texts` (rpt.py lines 74-83): all `label _("...")`
and `textbutton _("...")` captures, in document order. -/
def extractScreenTexts (s : List Char) : List (List Char) := screenScan s.length s

/-- Double-quoted string-literal body scan for the group `(?:[^"\\]|\\.)*`
followed by a closing `"`: returns the captured body and the text after the
closing quote. The two alternatives of the group are decided by the first
character, so the tokenisation is deterministic; a backslash at the end of
input or directly before a newline (`.` does not match `\n`) makes the whole
match fail, and no backtracking can recover because every shorter group match
would have to be followed by `"` at a position whose character is not `"`. -/
def scanLit : List Char → Option (List Char × List Char)
  | [] => none
  | '"' :: r => some ([], r)
  | '\\' :: r =>
    match r with
    | [] => none
    | d :: r2 =>
      if d = '\n' then none
      else (scanLit r2).map (fun p => ('\\' :: d :: p.1, p.2))
  | c :: r => (scanLit r).map (fun p => (c :: p.1, p.2))

/-- One alternative of the single-line dialogue pattern: a character name `n`
followed by `\s+` then a quoted literal, starting at `s0` (whitespace already
consumed). -/
def singleTry (s0 : List Char) (n : List Char) : Option (List Char × List Char) :=
  if List.isPrefixOf n s0 then
    let s1 := s0.drop n.length
    match s1 with
    | [] => none
    | c :: _ =>
      if isSpaceChar c then
        match s1.dropWhile isSpaceChar with
        | '"' :: s3 => scanLit s3
        | _ => none
      else none
  else none

/-- Alternation over the character names, in list order, with backtracking:
a later name is tried when the whole continuation fails for an earlier one. -/
def singleNames (s0 : List Char) : List (List Char) → Option (List Char × List Char)
  | [] => none
  | n :: ns =>
    match singleTry s0 n with
    | some p => some p
    | none => singleNames s0 ns

/-- Attempt of the single-line dialogue pattern
`^\s*(?P<char>names)\s+"((?:[^"\\]|\\.)*)"` (rpt.py lines 41-44) at an
anchor position. Character names produced by `gather_char_names` consist of
word characters, so the greedy `^\s*` is exact. -/
def matchSingleAt (cs : List (List Char)) (s : List Char) : Option (List Char × List Char) :=
  singleNames (s.dropWhile isSpaceChar) cs

/-- Lazy-capture scan for `(?P<text>.*?)\s*"""` with `re.DOTALL`: the capture
is the shortest prefix after which optional whitespace is followed by a triple
quote; returns the capture and the text after the closing triple quote. -/
def findLazy : List Char → Option (List Char × List Char)
  | [] => none
  | c :: r =>
    if List.isPrefixOf ['"', '"', '"'] ((c :: r).dropWhile isSpaceChar) then
      some ([], ((c :: r).dropWhile isSpaceChar).drop 3)
    else (findLazy r).map (fun p => (c :: p.1, p.2))

/-- One alternative of the multi-line dialogue pattern: name, `\s+`, `"""`,
`\s*\n`, lazy body, `\s*"""`. The greedy `\s*\n` consumes the maximal
whitespace run up to and including its last newline (the regex backtracks from
the end of the run to the last `\n`; earlier newlines can never make the rest
of the pattern succeed when the last one cannot, because the whitespace-then-
triple-quote test reaches the same first non-whitespace position). -/
def multiTry (s0 : List Char) (n : List Char) : Option (List Char × List Char) :=
  if List.isPrefixOf n s0 then
    let s1 := s0.drop n.length
    match s1 with
    | [] => none
    | c :: _ =>
      if isSpaceChar c then
        let s2 := s1.dropWhile isSpaceChar
        if List.isPrefixOf ['"', '"', '"'] s2 then
          let s3 := s2.drop 3
          let w := s3.takeWhile isSpaceChar
          if w.contains '\n' then
            let keepBack := (w.reverse.takeWhile (fun c => c != '\n')).reverse
            findLazy (keepBack ++ s3.drop w.length)
          else none
        else none
      else none
  else none

/-- Alternation over character names for the multi-line pattern. -/
def multiNames (s0 : List Char) : List (List Char) → Option (List Char × List Char)
  | [] => none
  | n :: ns =>
    match multiTry s0 n with
    | some p => some p
    | none => multiNames s0 ns

/-- Attempt of the multi-line dialogue pattern
`^\s*(?P<char>names)\s+"""\s*\n(?P<text>.*?)\s*"""` with
`re.MULTILINE | re.DOTALL` (rpt.py lines 45-48) at an anchor position. -/
def matchMultiAt (cs : List (List Char)) (s : List Char) : Option (List Char × List Char) :=
  multiNames (s.dropWhile isSpaceChar) cs

/-- Attempt of the menu-choice pattern `^\s*"([^"]+)"\s*:` (rpt.py line 67)
at an anchor position. -/
def matchMenuAt (s : List Char) : Option (List Char × List Char) :=
  match s.dropWhile isSpaceChar with
  | '"' :: s1 =>
    let cap := s1.takeWhile (fun c => c != '"')
    if cap.isEmpty then none
    else
      match s1.dropWhile (fun c => c != '"') with
      | '"' :: s2 =>
        match s2.dropWhile isSpaceChar with
        | ':' :: s3 => some (cap, s3)
        | _ => none
      | _ => none
  | _ => none

/-- Scan loop of `re.finditer` for a `re.MULTILINE` `^`-anchored pattern:
a match is attempted at the start of the text and directly after each newline;
a successful match consumes its span (its last character is never a newline
for the patterns in scope, so scanning resumes in mid-line state). Fuel is
the remaining length, spent one per step. -/
def scanA (f : List Char → Option (List Char × List Char)) :
    Nat → Bool → List Char → List (List Char)
  | 0, _, _ => []
  | Nat.succ fuel, atAnchor, s =>
    match s with
    | [] => []
    | c :: rest =>
      if atAnchor then
        match f s with
        | some (cap, after) => cap :: scanA f fuel false after
        | none => scanA f fuel (c == '\n') rest
      else scanA f fuel (c == '\n') rest

/-- All matches of an anchored pattern over a text, in order. -/
def scanPat (f : List Char → Option (List Char × List Char)) (s : List Char) :
    List (List Char) :=
  scanA f s.length true s

/-- Body processing of a multi-line match (rpt.py lines 63-65):
`"\n".join(ln.rstrip() for ln in raw.splitlines()).strip()`. -/
def processMulti (raw : List Char) : List Char :=
  pyStrip (List.intercalate ['\n'] ((pySplitlines raw).map pyRstrip))

/-- Code point to `Char`, failing on values that are not Unicode scalar values
(surrogates; CPython would produce a lone-surrogate `str` there, which has no
`Char` counterpart — no input in scope decodes to one). -/
def charFromCode (n : Nat) : Option Char :=
  if h : n.isValidChar then some (Char.ofNatAux n h) else none

/-- Body processing of a single-line match (rpt.py lines 58-60):
`m.group("text").encode("utf-8").decode("unicode_escape")` then `.strip()`;
`none` models an uncaught `UnicodeDecodeError` aborting the run. -/
def decodeSingle (raw : List Char) : Option (List Char) :=
  (uescape (utf8Encode raw)).bind fun ns => (ns.mapM charFromCode).map pyStrip

/-- Menu-choice units of one source: captures of the menu pattern, stripped
(rpt.py lines 67-70). The pattern does not mention character names. -/
def menuChoices (content : List Char) : List (List Char) :=
  (scanPat matchMenuAt content).map pyStrip

/-- Multi-line dialogue units of one source (rpt.py lines 62-65). -/
def multiUnits (cs : List (List Char)) (content : List Char) : List (List Char) :=
  (scanPat (matchMultiAt cs) content).map processMulti

/-- Single-line dialogue units of one source (rpt.py lines 58-60). -/
def singleUnits (cs : List (List Char)) (content : List Char) : Option (List (List Char)) :=
  (scanPat (matchSingleAt cs) content).mapM decodeSingle

/-- Source `extract_dialogues` (rpt.py lines 51-72): single-line units, then
multi-line units, then menu choices, concatenated in that fixed order. -/
def extractDialogues (cs : List (List Char)) (content : List Char) :
    Option (List (List Char)) :=
  (singleUnits cs content).map fun sd => sd ++ multiUnits cs content ++ menuChoices content

/-- Match of `DEFINE_RE` (rpt.py lines 9-12),
`^\s*(?:\$|define)\s+(?P<short>\w+)\s*=\s*Character\(` with `re.MULTILINE`,
modelled per line: every match is anchored at a line start, and a leading
`\s*` that crosses newlines consumes only whitespace-only lines, so the
captures and their order agree with a per-line scan. -/
def parseDefine (line : List Char) : Option (List Char) :=
  let l1 := line.dropWhile isSpaceChar
  let kw : Option (List Char) :=
    match l1 with
    | '$' :: r => some r
    | _ => if List.isPrefixOf "define".toList l1 then some (l1.drop 6) else none
  match kw with
  | none => none
  | some l2 =>
    match l2 with
    | [] => none
    | c :: _ =>
      if isSpaceChar c then
        let l3 := l2.dropWhile isSpaceChar
        let short := l3.takeWhile isWordChar
        if short.isEmpty then none
        else
          match (l3.dropWhile isWordChar).dropWhile isSpaceChar with
          | '=' :: l5 =>
            if List.isPrefixOf "Character(".toList (l5.dropWhile isSpaceChar) then
              some short
            else none
          | _ => none
      else none

/-- Character-definition captures of one source, in line order. -/
def definesOf (content : List Char) : List (List Char) :=
  (content.splitOn '\n').filterMap parseDefine

/-- Accumulation step of `gather_char_names`: append each name not already
present (`if short not in names: names.append(short)`). -/
def addNames (names : List (List Char)) : List (List Char) → List (List Char)
  | [] => names
  | n :: ns => addNames (if n ∈ names then names else names ++ [n]) ns

/-- Source `gather_char_names` (rpt.py lines 22-34) on the file contents, in
caller-supplied order. -/
def gatherCharNames (contents : List (List Char)) : List (List Char) :=
  contents.foldl (fun names c => addNames names (definesOf c)) []

/-- First-occurrence deduplication relative to an already-seen list; written
from the spec wording for ordered deduplicated accumulation, compared with the
source functions in the C2 and C7 theorems. -/
def fdA (seen : List (List Char)) : List (List Char) → List (List Char)
  | [] => []
  | x :: xs => if x ∈ seen then fdA seen xs else x :: fdA (x :: seen) xs

/-- Step-6 filter of `main` (rpt.py lines 236-241): drop empty texts and
repeated texts, keeping first occurrences. -/
def uniqueTextsGo (seen : List (List Char)) : List (List Char) → List (List Char)
  | [] => []
  | t :: rest =>
    if t ≠ [] ∧ t ∉ seen then t :: uniqueTextsGo (t :: seen) rest
    else uniqueTextsGo seen rest

/-- The deduplicated non-empty texts passed to the extraction-phase writer. -/
def uniqueTexts (ts : List (List Char)) : List (List Char) := uniqueTextsGo [] ts

/-- One record written by the screens phase (rpt.py lines 162-166 and
analogous loops), with `\n` line endings (`newline="\n"`). -/
def lfRecord (fill : Bool) (orig : List Char) : List Char :=
  ['<', ' '] ++ quote orig ++ ['\n', '>', ' '] ++
    (if fill then quote orig else []) ++ ['\n', '\n']

/-- One record written by the extraction phase (rpt.py lines 248-252), with
explicit `\r\n` line endings (`newline=""`). -/
def crlfRecord (fill : Bool) (orig : List Char) : List Char :=
  ['<', ' '] ++ quote orig ++ ['\r', '\n', '>', ' '] ++
    (if fill then quote orig else []) ++ ['\r', '\n', '\r', '\n']

/-- The nine empty-slot texts written by the screens phase (rpt.py lines
169-174), the loop over `range(1, 10)` unrolled. -/
def emptySlotTexts : List (List Char) :=
  [" 1. Empty Slot.", " 2. Empty Slot.", " 3. Empty Slot.", " 4. Empty Slot.",
   " 5. Empty Slot.", " 6. Empty Slot.", " 7. Empty Slot.", " 8. Empty Slot.",
   " 9. Empty Slot."].map String.toList

/-- Quit-confirmation text (rpt.py line 176). -/
def quitText : List Char := "Are you sure you want to quit?".toList

/-- The joystick-configuration texts (rpt.py lines 182-205). -/
def joystickTexts : List (List Char) :=
  ["Joystick Configuration",
   "Left - Axis 0.0 Negative",
   "Right - Axis 0.0 Positive",
   "Up - Axis 0.1 Negative",
   "Down - Axis 0.1 Positive",
   "Select/Dismiss - Button 0.0",
   "Rollback - Not Assigned",
   "Hold to Skip - Not Assigned",
   "Toggle Skip - Not Assigned",
   "Hide Text - Not Assigned",
   "Menu - Button 0.7",
   "Joystick Mapping - Left",
   "Joystick Mapping - Right",
   "Joystick Mapping - Up",
   "Joystick Mapping - Down",
   "Joystick Mapping - Select/Dismiss",
   "Joystick Mapping - Rollback",
   "Joystick Mapping - Hold to Skip",
   "Joystick Mapping - Toggle Skip",
   "Joystick Mapping - Hide Text",
   "Joystick Mapping - Menu",
   "Move the joystick or press a joystick button to create the mapping. Click the mouse to remove the mapping."].map String.toList

/-- File contents written by the screens phase (rpt.py lines 152-210): label
and button records (only when any were found), then empty slots, the quit
confirmation, and the joystick block. -/
def screensInit (labelTexts : List (List Char)) (fill : Bool) : List Char :=
  (if labelTexts.isEmpty then [] else (labelTexts.map (lfRecord fill)).flatten)
  ++ (emptySlotTexts.map (lfRecord fill)).flatten
  ++ lfRecord fill quitText
  ++ (joystickTexts.map (lfRecord fill)).flatten

/-- File contents appended by the extraction phase (rpt.py lines 247-252). -/
def recordsBlock (ts : List (List Char)) (fill : Bool) : List Char :=
  (ts.map (crlfRecord fill)).flatten

/-- Drop condition of the duplicate-block skip loop of `deduplicate_rpt`
(rpt.py line 114): translation-marker line or blank line. -/
def skipP (l : List Char) : Bool := List.isPrefixOf ['>'] l || isBlankL l

/-- Lines kept directly after a kept source line (rpt.py lines 101-110): the
next line when it starts with `>`, then every immediately following blank
line; returns the kept lines and the remaining input. -/
def keepTail : List (List Char) → List (List Char) × List (List Char)
  | [] => ([], [])
  | t :: rs =>
    if List.isPrefixOf ['>'] t then
      ((t :: (rs.span isBlankL).1), (rs.span isBlankL).2)
    else (((t :: rs).span isBlankL).1, ((t :: rs).span isBlankL).2)

/-- Main loop of `deduplicate_rpt` (rpt.py lines 94-118) over the lines read
from the file, with the set `seen` as a list. Every emitted line passes
through `crlfL` (`replace('\n', '\r\n')`). Fuel is the number of remaining
lines, spent one per step; every step consumes at least one line. -/
def dedupeGo : Nat → List (List Char) → List (List Char) → List (List Char)
  | _, _, [] => []
  | 0, _, _ :: _ => []
  | Nat.succ fuel, seen, l :: rest =>
    if List.isPrefixOf ['<', ' '] l then
      if pyRstrip (l.drop 2) ∈ seen then
        dedupeGo fuel seen (rest.dropWhile skipP)
      else
        crlfL l ::
          (((keepTail rest).1.map crlfL) ++
            dedupeGo fuel (pyRstrip (l.drop 2) :: seen) (keepTail rest).2)
    else crlfL l :: dedupeGo fuel seen rest

/-- `deduplicate_rpt` on a list of lines. -/
def dedupeLines (ls : List (List Char)) : List (List Char) :=
  dedupeGo ls.length [] ls

/-- Same loop as `dedupeGo` without the `crlfL` normalisation: the input lines
that the pass keeps. Used to factor the proofs about `dedupeGo`. -/
def keptLines : Nat → List (List Char) → List (List Char) → List (List Char)
  | _, _, [] => []
  | 0, _, _ :: _ => []
  | Nat.succ fuel, seen, l :: rest =>
    if List.isPrefixOf ['<', ' '] l then
      if pyRstrip (l.drop 2) ∈ seen then
        keptLines fuel seen (rest.dropWhile skipP)
      else
        l :: ((keepTail rest).1 ++
          keptLines fuel (pyRstrip (l.drop 2) :: seen) (keepTail rest).2)
    else l :: keptLines fuel seen rest

/-- Source `deduplicate_rpt` (rpt.py lines 85-121) as a transformation of the
file contents: read with universal newlines, split into lines, deduplicate,
write the emitted lines back verbatim (`newline=""`). -/
def dedupeFile (c : List Char) : List Char :=
  (dedupeLines (pyReadlines c)).flatten

/-- Payload of a source-marker line: the content after `"< "`, with trailing
whitespace stripped; `none` for any other line. -/
def payloadOf (l : List Char) : Option (List Char) :=
  if List.isPrefixOf ['<', ' '] l then some (pyRstrip (l.drop 2)) else none

/-- Source payloads of the record lines among `ls`, in order. -/
def payloads (ls : List (List Char)) : List (List Char) :=
  ls.filterMap payloadOf

/-- Outcome of a run of `main` (rpt.py lines 123-258) for a fixed input file
set: the fatal error message if any, the output-file contents at termination,
and the names of the sources that were dialogue-scanned, in order. -/
structure RunOut where
  err : Option String
  file : List Char
  scanned : List String
deriving DecidableEq, Repr

/-- Message of `sys.exit` at rpt.py line 150. -/
def noFilesMsg : String := "Error: No .rpy files found under the input directory."

/-- Message of `sys.exit` at rpt.py line 225 (quotes elided). -/
def noCharsMsg : String := "Error: No character definitions found in any .rpy files."

/-- Message of `sys.exit` at rpt.py line 243. -/
def noDialogueMsg : String := "Error: No dialogue lines are found from .rpy files."

/-- Marker for an uncaught `UnicodeDecodeError` during single-line decoding. -/
def decodeErrMsg : String := "UnicodeDecodeError"

/-- Reordering of rpt.py lines 217-220: when a file named `script.rpy` is
present, its first occurrence is moved to the front. -/
def reorderFiles (files : List (String × List Char)) : List (String × List Char) :=
  match files.find? (fun f => f.1 == "script.rpy") with
  | some f => f :: files.eraseP (fun f => f.1 == "script.rpy")
  | none => files

/-- Extraction over all sources in order (rpt.py lines 231-233): names of the
files scanned so far, and the concatenated texts unless a decode error
occurred. -/
def extractAll (cs : List (List Char)) :
    List (String × List Char) → List String × Option (List (List Char))
  | [] => ([], some [])
  | (n, c) :: rest =>
    match extractDialogues cs c with
    | none => ([n], none)
    | some ts => ((n :: (extractAll cs rest).1), ((extractAll cs rest).2).map (ts ++ ·))

/-- Source `main` (rpt.py lines 123-258), parametrised by the discovered file
list (name and contents, in `glob` order) and the fill-template flag; command
line parsing, directory traversal and console messages are not modelled. -/
def runMain (files : List (String × List Char)) (fill : Bool) : RunOut :=
  if files.isEmpty then ⟨some noFilesMsg, [], []⟩
  else
    let fileInit :=
      match List.lookup "screens.rpy" files with
      | some sc => screensInit (extractScreenTexts sc) fill
      | none => []
    let ordered := reorderFiles files
    let cs := gatherCharNames (ordered.map Prod.snd)
    if cs.isEmpty then ⟨some noCharsMsg, fileInit, []⟩
    else
      match (extractAll cs ordered).2 with
      | none => ⟨some decodeErrMsg, fileInit, (extractAll cs ordered).1⟩
      | some allTexts =>
        if (uniqueTexts allTexts).isEmpty then
          ⟨some noDialogueMsg, fileInit, (extractAll cs ordered).1⟩
        else
          ⟨none, dedupeFile (fileInit ++ recordsBlock (uniqueTexts allTexts) fill),
            (extractAll cs ordered).1⟩

/-- Shape of a line produced by `pyReadlines`: non-empty, containing no
carriage return (universal-newline translation removed them all), and a
newline only as its final character. -/
def goodLine (l : List Char) : Prop :=
  l ≠ [] ∧ '\r' ∉ l ∧ '\n' ∉ l.dropLast

/-! ## Helper lemmas -/

theorem replaceChar_append (c : Char) (r a b : List Char) :
    replaceChar c r (a ++ b) = replaceChar c r a ++ replaceChar c r b := by
  induction a with
  | nil => rfl
  | cons x xs ih => simp [replaceChar, ih]

theorem quote_cons (c : Char) (s : List Char) :
    quote (c :: s) = quoteChar c ++ quote s := by
  by_cases h1 : c = '\\'
  · subst h1
    simp [quote, quoteChar, replaceChar, replaceChar_append]
  · by_cases h2 : c = '\n'
    · subst h2
      simp [quote, quoteChar, replaceChar, replaceChar_append]
    · simp [quote, quoteChar, replaceChar, replaceChar_append, h1, h2]

theorem quote_flat (s : List Char) : quote s = (s.map quoteChar).flatten := by
  induction s with
  | nil => rfl
  | cons c cs ih => simp [quote_cons, ih]

theorem fdA_congr (s₁ s₂ : List (List Char)) (l : List (List Char))
    (h : ∀ x, x ∈ s₁ ↔ x ∈ s₂) : fdA s₁ l = fdA s₂ l := by
  induction l generalizing s₁ s₂ with
  | nil => rfl
  | cons x xs ih =>
    by_cases hx : x ∈ s₁
    · simp [fdA, hx, (h x).mp hx, ih _ _ h]
    · have hx2 : x ∉ s₂ := fun hc => hx ((h x).mpr hc)
      have h' : ∀ y, y ∈ x :: s₁ ↔ y ∈ x :: s₂ := by
        intro y; simp [h y]
      simp [fdA, hx, hx2, ih _ _ h']

theorem fdA_append (seen a b : List (List Char)) :
    fdA seen (a ++ b) = fdA seen a ++ fdA (fdA seen a ++ seen) b := by
  induction a generalizing seen with
  | nil => simp [fdA]
  | cons x xs ih =>
    by_cases hx : x ∈ seen
    · simp [fdA, hx, ih]
    · simp only [List.cons_append, fdA, hx, if_false, ite_false, if_neg, not_false_iff,
        List.append_eq]
      rw [ih (x :: seen)]
      refine congrArg _ (congrArg _ (fdA_congr _ _ _ fun y => ?_))
      simp only [List.mem_append, List.mem_cons]
      tauto

theorem addNames_eq (ns names : List (List Char)) :
    addNames names ns = names ++ fdA names ns := by
  induction ns generalizing names with
  | nil => simp [addNames, fdA]
  | cons n ns ih =>
    by_cases hn : n ∈ names
    · simp [addNames, hn, fdA, ih]
    · simp only [addNames, hn, if_neg, fdA, not_false_iff]
      rw [ih (names ++ [n])]
      simp only [List.append_assoc, List.singleton_append]
      refine congrArg _ (congrArg _ (fdA_congr _ _ _ fun y => ?_))
      simp [or_comm]

theorem gather_foldl (contents : List (List Char)) (acc : List (List Char)) :
    contents.foldl (fun names c => addNames names (definesOf c)) acc =
      acc ++ fdA acc ((contents.map definesOf).flatten) := by
  induction contents generalizing acc with
  | nil => simp [fdA]
  | cons c cc ih =>
    simp only [List.foldl_cons, List.map_cons, List.flatten_cons]
    rw [addNames_eq, ih, fdA_append, List.append_assoc]
    refine congrArg _ (congrArg _ (fdA_congr _ _ _ fun y => ?_))
    simp [or_comm]

theorem fdA_nodup (l : List (List Char)) (seen : List (List Char)) :
    (fdA seen l).Nodup ∧ ∀ x ∈ fdA seen l, x ∉ seen := by
  induction l generalizing seen with
  | nil => simp [fdA]
  | cons x xs ih =>
    by_cases hx : x ∈ seen
    · simpa [fdA, hx] using ih seen
    · have h2 := ih (x :: seen)
      refine ⟨?_, ?_⟩
      · simp only [fdA, hx, if_neg, not_false_iff, List.nodup_cons]
        exact ⟨fun hc => (h2.2 x hc) (List.mem_cons_self _ _), h2.1⟩
      · intro y hy
        simp only [fdA, hx, if_neg, not_false_iff, List.mem_cons] at hy
        rcases hy with rfl | hy
        · exact hx
        · exact fun hc => (h2.2 y hy) (List.mem_cons_of_mem _ hc)

theorem uniqueGo_ne (ts : List (List Char)) (seen : List (List Char)) :
    ∀ t ∈ uniqueTextsGo seen ts, t ≠ [] := by
  induction ts generalizing seen with
  | nil => simp [uniqueTextsGo]
  | cons t ts ih =>
    intro u hu
    simp only [uniqueTextsGo] at hu
    split at hu
    · rcases List.mem_cons.mp hu with rfl | hu
      · rename_i h
        exact h.1
      · exact ih _ u hu
    · exact ih _ u hu

theorem utf8Encode_append (a b : List Char) :
    utf8Encode (a ++ b) = utf8Encode a ++ utf8Encode b := by
  induction a with
  | nil => rfl
  | cons c cs ih => simp [utf8Encode, ih]

theorem utf8Char_small (n : Nat) (h : n < 128) : utf8Char n = [n] := by
  simp [utf8Char, h]

theorem uescapeF_bs (f : Nat) (B : List Nat) :
    uescapeF (Nat.succ f) (92 :: 92 :: B) = (uescapeF f B).map (92 :: ·) := by
  show (match escStep (92 :: B) with
    | none => none
    | some (out, r2) => (uescapeF f r2).map (out ++ ·)) = _
  show (uescapeF f B).map ([92] ++ ·) = _
  rfl

theorem uescapeF_n (f : Nat) (B : List Nat) :
    uescapeF (Nat.succ f) (92 :: 110 :: B) = (uescapeF f B).map (10 :: ·) := by
  show (match escStep (110 :: B) with
    | none => none
    | some (out, r2) => (uescapeF f r2).map (out ++ ·)) = _
  show (uescapeF f B).map ([10] ++ ·) = _
  rfl

theorem uescapeF_plain (f : Nat) (b : Nat) (B : List Nat) (hb : b ≠ 92) :
    uescapeF (Nat.succ f) (b :: B) = (uescapeF f B).map (b :: ·) := by
  rw [uescapeF.eq_def]
  simp [hb]

theorem toNat_ne_of_ne (c d : Char) (h : c ≠ d) : c.toNat ≠ d.toNat := by
  intro hc
  exact h (by rw [← Char.ofNat_toNat c, hc, Char.ofNat_toNat])

theorem uescapeF_quote (s : List Char) (fuel : Nat)
    (hf : (utf8Encode (quote s)).length ≤ fuel)
    (h : ∀ c ∈ s, printableAscii c = true ∨ c = '\n') :
    uescapeF fuel (utf8Encode (quote s)) = some (s.map Char.toNat) := by
  induction s generalizing fuel with
  | nil =>
    cases fuel <;> rfl
  | cons c cs ih =>
    have hc := h c (List.mem_cons_self _ _)
    have hcs : ∀ x ∈ cs, printableAscii x = true ∨ x = '\n' :=
      fun x hx => h x (List.mem_cons_of_mem _ hx)
    rw [quote_cons, utf8Encode_append] at hf ⊢
    by_cases h1 : c = '\\'
    · subst h1
      have he : utf8Encode (quoteChar '\\') = [92, 92] := by decide
      rw [he] at hf ⊢
      cases fuel with
      | zero => simp at hf
      | succ f =>
        have hf2 : (utf8Encode (quote cs)).length ≤ f := by
          simp only [List.length_append, List.length_cons, List.length_nil] at hf
          omega
        rw [List.cons_append, List.cons_append, List.nil_append, uescapeF_bs,
          ih f hf2 hcs]
        rfl
    · by_cases h2 : c = '\n'
      · subst h2
        have he : utf8Encode (quoteChar '\n') = [92, 110] := by decide
        rw [he] at hf ⊢
        cases fuel with
        | zero => simp at hf
        | succ f =>
          have hf2 : (utf8Encode (quote cs)).length ≤ f := by
            simp only [List.length_append, List.length_cons, List.length_nil] at hf
            omega
          rw [List.cons_append, List.cons_append, List.nil_append, uescapeF_n,
            ih f hf2 hcs]
          rfl
      · have hpr : printableAscii c = true := by
          rcases hc with hc | hc
          · exact hc
          · exact absurd hc h2
        have hlt : c.toNat < 128 := by
          have := (Bool.and_eq_true _ _).mp hpr
          have h126 : c.toNat ≤ 126 := by
            have := this.2
            exact Nat.le_of_ble_eq_true (by simpa using this)
          omega
        have he : utf8Encode (quoteChar c) = [c.toNat] := by
          simp [quoteChar, h1, h2, utf8Encode, utf8Char_small _ hlt]
        rw [he] at hf ⊢
        have hb : c.toNat ≠ 92 := by
          have := toNat_ne_of_ne c '\\' h1
          simpa using this
        cases fuel with
        | zero => simp at hf
        | succ f =>
          have hf2 : (utf8Encode (quote cs)).length ≤ f := by
            simp only [List.length_append, List.length_cons, List.length_nil] at hf
            omega
          rw [List.cons_append, List.nil_append, uescapeF_plain f _ _ hb,
            ih f hf2 hcs]
          rfl

/-! ## Claim theorems -/

/-- C1 (amended): for every string containing only printable ASCII
characters, backslashes, and newlines, decoding the escaped form recovers the
original: `unescape(escape(s)) = s`, where escape is `quote` and unescape is
`encode("utf-8").decode("unicode_escape")` as applied to matched single-line
dialogue bodies. (The original claim, over all printable characters, fails for
printable non-ASCII characters; see the counterexample.) -/
theorem quote_uescape_roundtrip (s : List Char)
    (h : ∀ c ∈ s, printableAscii c = true ∨ c = '\n') :
    uescape (utf8Encode (quote s)) = some (s.map Char.toNat) :=
  uescapeF_quote s _ le_rfl h

/-- C1 witness: the round trip at the concrete string `ab\c` + newline + `d`. -/
theorem quote_uescape_roundtrip_witness :
    (∀ c ∈ "ab\\c\nd".toList, printableAscii c = true ∨ c = '\n') ∧
      uescape (utf8Encode (quote "ab\\c\nd".toList)) =
        some ("ab\\c\nd".toList.map Char.toNat) :=
  ⟨by decide, quote_uescape_roundtrip "ab\\c\nd".toList (by decide)⟩

/-- C1 counterexample: the single printable character `é` (U+00E9,
`str.isprintable` holds for it in Python) does not survive the round trip:
`quote` leaves it unchanged, UTF-8 encoding yields bytes 195, 169, and the
`unicode_escape` codec decodes those bytes as the two characters `Ã©`
(code points 195, 169), not as `é` (code point 233). -/
theorem quote_uescape_not_roundtrip_nonascii :
    uescape (utf8Encode (quote ['é'])) ≠ some (['é'].map Char.toNat) ∧
      uescape (utf8Encode (quote ['é'])) = some [195, 169] ∧
      (['é'].map Char.toNat) = [233] := by
  refine ⟨by decide, by decide, by decide⟩

/-- C5: the escaping transform `quote` first replaces every backslash with a
doubled backslash, then every newline with backslash-n (that is its
definition), alters no other character (it equals the per-character map
`quoteChar`), and the extraction-phase writer applies it to both the source
line and the translation line of every written record. -/
theorem quote_escapes_exactly :
    (∀ s : List Char, quote s = (s.map quoteChar).flatten) ∧
    (∀ (fill : Bool) (t : List Char),
      crlfRecord fill t =
        ['<', ' '] ++ quote t ++ ['\r', '\n'] ++ ['>', ' '] ++
          quote (if fill then t else []) ++ ['\r', '\n', '\r', '\n']) := by
  refine ⟨quote_flat, fun fill t => ?_⟩
  cases fill <;> simp [crlfRecord, quote, replaceChar]

/-- C7: `gather_char_names` returns the character identifiers as an ordered,
deduplicated list: it equals the first-occurrence deduplication of the
concatenated per-file definition captures (caller-supplied file order, line
order within each file), uniqueness being exact string equality, and the
result has no duplicates. -/
theorem gatherCharNames_ordered_dedup (contents : List (List Char)) :
    gatherCharNames contents = fdA [] ((contents.map definesOf).flatten) ∧
      (gatherCharNames contents).Nodup := by
  have h : gatherCharNames contents = fdA [] ((contents.map definesOf).flatten) := by
    rw [gatherCharNames, gather_foldl]
    simp
  exact ⟨h, h ▸ (fdA_nodup _ _).1⟩

/-- C10: every text kept by the step-6 filter (the list handed to the
extraction-phase writer) is non-empty; and at the concrete triple-quote
source `e """` newline `hi` newline `"""`, the single-line pattern produces
the empty-string match at the opening delimiter (first element of the
extraction result) while the multi-line pattern produces `hi`, and the filter
silently discards the empty text before deduplication and writing. -/
theorem writer_receives_nonempty :
    (∀ (ts : List (List Char)) (t : List Char), t ∈ uniqueTexts ts → t ≠ []) ∧
      extractDialogues [['e']] "e \"\"\"\nhi\n\"\"\"".toList =
        some [[], ['h', 'i']] ∧
      uniqueTexts [[], ['h', 'i']] = [['h', 'i']] := by
  refine ⟨fun ts t h => uniqueGo_ne ts [] t h, by decide, by decide⟩

/-- C10 witness: the non-emptiness fact applied at a concrete filter run. -/
theorem writer_receives_nonempty_witness :
    (['h', 'i'] ∈ uniqueTexts [[], ['h', 'i']]) ∧ (['h', 'i'] : List Char) ≠ [] :=
  ⟨by decide, writer_receives_nonempty.1 [[], ['h', 'i']] ['h', 'i'] (by decide)⟩

theorem dropWhile_append_all (p : Char → Bool) (ws l : List Char)
    (h : ∀ c ∈ ws, p c = true) : (ws ++ l).dropWhile p = l.dropWhile p := by
  induction ws with
  | nil => rfl
  | cons c cs ih =>
    simp only [List.cons_append, List.dropWhile_cons, h c (List.mem_cons_self _ _),
      if_true]
    exact ih fun x hx => h x (List.mem_cons_of_mem _ hx)

theorem takeWhile_append_stop (p : Char → Bool) (mid : List Char) (x : Char)
    (r : List Char) (hmid : ∀ c ∈ mid, p c = true) (hx : p x = false) :
    (mid ++ x :: r).takeWhile p = mid := by
  induction mid with
  | nil => simp [List.takeWhile_cons, hx]
  | cons c cs ih =>
    simp only [List.cons_append, List.takeWhile_cons, hmid c (List.mem_cons_self _ _),
      if_true]
    exact congrArg _ (ih fun y hy => hmid y (List.mem_cons_of_mem _ hy))

theorem dropWhile_append_stop (p : Char → Bool) (mid : List Char) (x : Char)
    (r : List Char) (hmid : ∀ c ∈ mid, p c = true) (hx : p x = false) :
    (mid ++ x :: r).dropWhile p = x :: r := by
  rw [dropWhile_append_all p mid _ hmid]
  simp [List.dropWhile_cons, hx]

theorem scanA_nil (f : List Char → Option (List Char × List Char)) (k : Nat)
    (flag : Bool) : scanA f k flag [] = [] := by
  cases k <;> rfl

theorem matchMenu_line (ws mid : List Char) (hws : ∀ c ∈ ws, isSpaceChar c = true)
    (hmid : mid ≠ []) (hq : '"' ∉ mid) :
    matchMenuAt (ws ++ '"' :: (mid ++ ['"', ':'])) = some (mid, []) := by
  have hqs : isSpaceChar '"' = false := by decide
  have hcap : (mid ++ ['"', ':']).takeWhile (fun c => c != '"') = mid := by
    refine takeWhile_append_stop _ mid '"' [':'] (fun c hc => ?_) (by decide)
    simp only [bne_iff_ne, ne_eq, decide_eq_true_eq]
    exact fun e => hq (e ▸ hc)
  have hdrop : (mid ++ ['"', ':']).dropWhile (fun c => c != '"') = ['"', ':'] := by
    refine dropWhile_append_stop _ mid '"' [':'] (fun c hc => ?_) (by decide)
    simp only [bne_iff_ne, ne_eq, decide_eq_true_eq]
    exact fun e => hq (e ▸ hc)
  have hmie : mid.isEmpty = false := by simpa using hmid
  unfold matchMenuAt
  rw [dropWhile_append_all _ ws _ hws]
  simp only [List.dropWhile_cons, hqs, if_false, ite_false, Bool.false_eq_true]
  simp [hcap, hdrop, hmie]
  rfl

/-- C9: the menu-choice extractor matches any line consisting of (optional
whitespace, then) a quoted string immediately followed by a colon,
independently of any character-name list `cs`, and produces the quoted content
trimmed; the menu pattern itself takes no character-name parameter, and its
output occurs in the full extraction result whatever `cs` is. -/
theorem menu_matches_quoted_colon_line (cs : List (List Char)) (ws mid : List Char)
    (hws : ∀ c ∈ ws, isSpaceChar c = true) (hmid : mid ≠ []) (hq : '"' ∉ mid) :
    menuChoices (ws ++ '"' :: (mid ++ ['"', ':'])) = [pyStrip mid] ∧
      ∀ ts, extractDialogues cs (ws ++ '"' :: (mid ++ ['"', ':'])) = some ts →
        pyStrip mid ∈ ts := by
  have hm := matchMenu_line ws mid hws hmid hq
  have hne : ws ++ '"' :: (mid ++ ['"', ':']) ≠ [] := by simp
  obtain ⟨c0, r0, hcr⟩ := List.exists_cons_of_ne_nil hne
  have h1 : menuChoices (ws ++ '"' :: (mid ++ ['"', ':'])) = [pyStrip mid] := by
    unfold menuChoices scanPat
    rw [hcr] at hm ⊢
    simp only [List.length_cons, scanA, hm, scanA_nil]
    rfl
  refine ⟨h1, fun ts hts => ?_⟩
  unfold extractDialogues at hts
  obtain ⟨sd, _, rfl⟩ := Option.map_eq_some'.mp hts
  refine List.mem_append_right _ ?_
  rw [h1]
  exact List.mem_singleton.mpr rfl

/-- C9 witness: the menu line `"go":` with a leading space, for the character
list of the C8 sample. -/
theorem menu_matches_quoted_colon_line_witness :
    ((∀ c ∈ [' '], isSpaceChar c = true) ∧ ("go".toList ≠ []) ∧ ('"' ∉ "go".toList)) ∧
      menuChoices ([' '] ++ '"' :: ("go".toList ++ ['"', ':'])) = [pyStrip "go".toList] :=
  ⟨⟨by decide, by decide, by decide⟩,
    (menu_matches_quoted_colon_line [] [' '] "go".toList (by decide) (by decide)
      (by decide)).1⟩

theorem dropWhile_idem (p : Char → Bool) (x : List Char) :
    (x.dropWhile p).dropWhile p = x.dropWhile p := by
  induction x with
  | nil => rfl
  | cons c r ih =>
    by_cases h : p c
    · simp [List.dropWhile_cons, h, ih]
    · simp [List.dropWhile_cons, h]

theorem pyRstrip_idem (l : List Char) : pyRstrip (pyRstrip l) = pyRstrip l := by
  unfold pyRstrip
  rw [List.reverse_reverse, dropWhile_idem]

theorem pyRstrip_cons (c : Char) (l : List Char) :
    pyRstrip (c :: l) =
      if pyRstrip l = [] then (if isSpaceChar c then [] else [c])
      else c :: pyRstrip l := by
  unfold pyRstrip
  rw [List.reverse_cons, List.dropWhile_append]
  by_cases h : l.reverse.dropWhile isSpaceChar = []
  · by_cases hc : isSpaceChar c <;> simp [h, List.dropWhile_cons, hc]
  · have h2 : (l.reverse.dropWhile isSpaceChar).isEmpty = false := by simpa using h
    have h3 : (l.reverse.dropWhile isSpaceChar).reverse ≠ [] := by simpa using h
    simp [h2, h3]

theorem pyLstrip_cons_space (c : Char) (l : List Char) (hc : isSpaceChar c = true) :
    pyLstrip (c :: l) = pyLstrip l := by
  simp [pyLstrip, List.dropWhile_cons, hc]

theorem pyLstrip_cons_nonspace (c : Char) (l : List Char) (hc : isSpaceChar c = false) :
    pyLstrip (c :: l) = c :: l := by
  simp [pyLstrip, List.dropWhile_cons, hc]

theorem lstrip_rstrip_comm (l : List Char) :
    pyLstrip (pyRstrip l) = pyRstrip (pyLstrip l) := by
  induction l with
  | nil => rfl
  | cons c rest ih =>
    rw [pyRstrip_cons]
    cases hc : isSpaceChar c with
    | true =>
      rw [pyLstrip_cons_space c rest hc]
      by_cases h0 : pyRstrip rest = []
      · rw [if_pos h0, show (if true = true then ([] : List Char) else [c]) = [] from rfl,
          show pyLstrip ([] : List Char) = [] from rfl, ← ih, h0]
        rfl
      · rw [if_neg h0, pyLstrip_cons_space c _ hc, ih]
    | false =>
      rw [pyLstrip_cons_nonspace c rest hc, pyRstrip_cons]
      by_cases h0 : pyRstrip rest = []
      · rw [if_pos h0, if_pos h0,
          show (if false = true then ([] : List Char) else [c]) = [c] from rfl, hc,
          show (if false = true then ([] : List Char) else [c]) = [c] from rfl]
        exact pyLstrip_cons_nonspace c [] hc
      · rw [if_neg h0, if_neg h0]
        exact pyLstrip_cons_nonspace _ _ hc

theorem pyStrip_pyRstrip (l : List Char) : pyStrip (pyRstrip l) = pyStrip l := by
  unfold pyStrip
  rw [lstrip_rstrip_comm]
  exact pyRstrip_idem _

theorem mem_pyRstrip (c : Char) (l : List Char) (h : c ∈ pyRstrip l) : c ∈ l := by
  unfold pyRstrip at h
  rw [List.mem_reverse] at h
  exact List.mem_reverse.mp ((List.dropWhile_sublist _).mem h)

theorem mem_pyStrip (c : Char) (l : List Char) (h : c ∈ pyStrip l) : c ∈ l := by
  unfold pyStrip pyLstrip at h
  exact (List.dropWhile_sublist _).mem (mem_pyRstrip _ _ h)

theorem splitlinesAux_cons_nobrk (cur : List Char) (c : Char) (rest : List Char)
    (hc : isLineBrk c = false) :
    splitlinesAux cur (c :: rest) = splitlinesAux (c :: cur) rest := by
  rw [splitlinesAux.eq_def]
  split
  · rename_i heq
    exact absurd heq (by simp)
  · rename_i heq
    injection heq with h1 h2
    subst h1
    exact absurd hc (by decide)
  · rename_i heq
    injection heq with h1 h2
    subst h1
    subst h2
    rw [hc]
    simp

theorem splitlinesAux_nobrk (raw : List Char) (cur : List Char)
    (h : ∀ c ∈ raw, isLineBrk c = false) :
    splitlinesAux cur raw =
      if cur.isEmpty && raw.isEmpty then [] else [cur.reverse ++ raw] := by
  induction raw generalizing cur with
  | nil => cases cur <;> simp [splitlinesAux]
  | cons c rest ih =>
    have hc := h c (List.mem_cons_self _ _)
    rw [splitlinesAux_cons_nobrk cur c rest hc]
    rw [ih (c :: cur) fun x hx => h x (List.mem_cons_of_mem _ hx)]
    simp

theorem pySplitlines_nobrk (raw : List Char) (h : ∀ c ∈ raw, isLineBrk c = false) :
    pySplitlines raw = if raw.isEmpty then [] else [raw] := by
  unfold pySplitlines
  rw [splitlinesAux_nobrk raw [] h]
  simp

/-- C8: the TextUnit produced for a matched multi-line dialogue block is
obtained by stripping trailing whitespace from each internal line (leading
whitespace preserved), rejoining with single newline separators, and trimming
the whole block (first conjunct, the definition of the processing step); a
body of exactly one internal line (no line-break characters) yields that line
trimmed, with no embedded newline (second conjunct); and at the concrete
source `e """` newline `  hello  ` newline `"""`, extraction yields the
TextUnit `hello` (third conjunct; the leading `[]` is the empty single-line
match at the opening delimiter, cf. C10). -/
theorem multiline_block_processing :
    (∀ raw, processMulti raw =
      pyStrip (List.intercalate ['\n'] ((pySplitlines raw).map pyRstrip))) ∧
    (∀ raw, (∀ c ∈ raw, isLineBrk c = false) →
      processMulti raw = pyStrip raw ∧ '\n' ∉ processMulti raw) ∧
      extractDialogues [['e']] "e \"\"\"\n  hello  \n\"\"\"".toList =
        some [[], "hello".toList] := by
  refine ⟨fun raw => rfl, fun raw h => ?_, by decide⟩
  have h1 : processMulti raw = pyStrip raw := by
    unfold processMulti
    by_cases hr : raw = []
    · subst hr
      rfl
    · rw [pySplitlines_nobrk raw h]
      have h2 : raw.isEmpty = false := by simpa using hr
      rw [h2]
      simp only [Bool.false_eq_true, if_false, ite_false, List.map_cons, List.map_nil]
      have h3 : List.intercalate ['\n'] [pyRstrip raw] = pyRstrip raw := by
        simp [List.intercalate]
      rw [h3]
      exact pyStrip_pyRstrip raw
  refine ⟨h1, fun hmem => ?_⟩
  rw [h1] at hmem
  have h4 := h _ (mem_pyStrip _ _ hmem)
  exact absurd h4 (by decide)

/-- C8 witness: the one-internal-line processing fact at the concrete body
`  hi  `. -/
theorem multiline_block_processing_witness :
    (∀ c ∈ "  hi  ".toList, isLineBrk c = false) ∧
      processMulti "  hi  ".toList = pyStrip "  hi  ".toList :=
  ⟨by decide, (multiline_block_processing.2.1 "  hi  ".toList (by decide)).1⟩

theorem mem_reorder (files : List (String × List Char)) (f : String × List Char)
    (hf : f ∈ reorderFiles files) : f ∈ files := by
  unfold reorderFiles at hf
  split at hf
  · rename_i g hg
    rcases List.mem_cons.mp hf with rfl | hf2
    · exact List.mem_of_find?_eq_some hg
    · exact (List.eraseP_sublist _).mem hf2
  · exact hf

theorem gather_nil (contents : List (List Char))
    (h : ∀ c ∈ contents, definesOf c = []) : gatherCharNames contents = [] := by
  have hfl : (contents.map definesOf).flatten = [] := by
    induction contents with
    | nil => rfl
    | cons c cc ih =>
      simp only [List.map_cons, List.flatten_cons, h c (List.mem_cons_self _ _),
        List.nil_append]
      exact ih fun x hx => h x (List.mem_cons_of_mem _ hx)
  rw [gatherCharNames, gather_foldl, hfl]
  rfl

/-- C6: for every input set in which no source contains a
character-definition statement, the run terminates fatally (for a non-empty
file set, at the character-definition check; for an empty one, even earlier at
the file check) before any dialogue scan executes: the list of
dialogue-scanned sources in the outcome is empty. -/
theorem no_chardefs_fatal_before_scan (files : List (String × List Char)) (fill : Bool)
    (h : ∀ f ∈ files, definesOf f.2 = []) :
    (runMain files fill).err.isSome = true ∧ (runMain files fill).scanned = [] := by
  by_cases hf : files.isEmpty = true
  · unfold runMain
    rw [if_pos hf]
    exact ⟨rfl, rfl⟩
  · have hg : gatherCharNames ((reorderFiles files).map Prod.snd) = [] := by
      apply gather_nil
      intro c hc
      rw [List.mem_map] at hc
      obtain ⟨f, hf2, rfl⟩ := hc
      exact h f (mem_reorder _ _ hf2)
    unfold runMain
    rw [if_neg hf]
    simp [hg]

/-- C6 witness: a single source with no character definitions. -/
theorem no_chardefs_fatal_before_scan_witness :
    (∀ f ∈ [("a.rpy", "hello \"x\"".toList)], definesOf f.2 = []) ∧
      ((runMain [("a.rpy", "hello \"x\"".toList)] false).err.isSome = true ∧
        (runMain [("a.rpy", "hello \"x\"".toList)] false).scanned = []) :=
  ⟨by decide, no_chardefs_fatal_before_scan _ false (by decide)⟩

theorem uniqueTextsGo_eq_nil_iff (seen ts : List (List Char)) :
    uniqueTextsGo seen ts = [] ↔ ∀ t ∈ ts, t = [] ∨ t ∈ seen := by
  induction ts generalizing seen with
  | nil => simp [uniqueTextsGo]
  | cons t rest ih =>
    by_cases h : t ≠ [] ∧ t ∉ seen
    · rw [uniqueTextsGo, if_pos h]
      constructor
      · intro hc
        exact absurd hc (List.cons_ne_nil _ _)
      · intro hall
        exact ((hall t (List.mem_cons_self t rest)).elim h.1 h.2).elim
    · rw [uniqueTextsGo, if_neg h, ih seen]
      push_neg at h
      constructor
      · intro hall x hx
        rcases List.mem_cons.mp hx with rfl | hm
        · by_cases he : x = []
          · exact Or.inl he
          · exact Or.inr (h he)
        · exact hall x hm
      · intro hall x hx
        exact hall x (List.mem_cons_of_mem t hx)

theorem uniqueTexts_eq_nil_iff (ts : List (List Char)) :
    uniqueTexts ts = [] ↔ ∀ t ∈ ts, t = [] := by
  rw [uniqueTexts, uniqueTextsGo_eq_nil_iff]
  simp

theorem runMain_err_of_empty (files : List (String × List Char)) (fill : Bool)
    (h : files.isEmpty = true) : (runMain files fill).err = some noFilesMsg := by
  unfold runMain
  rw [if_pos h]

theorem runMain_err_of_noChars (files : List (String × List Char)) (fill : Bool)
    (h1 : ¬ (files.isEmpty = true))
    (h2 : (gatherCharNames ((reorderFiles files).map Prod.snd)).isEmpty = true) :
    (runMain files fill).err = some noCharsMsg := by
  unfold runMain
  rw [if_neg h1]
  show (if (gatherCharNames ((reorderFiles files).map Prod.snd)).isEmpty = true
      then _ else _ : RunOut).err = some noCharsMsg
  rw [if_pos h2]

theorem runMain_err_of_decodeErr (files : List (String × List Char)) (fill : Bool)
    (h1 : ¬ (files.isEmpty = true))
    (h2 : ¬ ((gatherCharNames ((reorderFiles files).map Prod.snd)).isEmpty = true))
    (h3 : (extractAll (gatherCharNames ((reorderFiles files).map Prod.snd))
        (reorderFiles files)).2 = none) :
    (runMain files fill).err = some decodeErrMsg := by
  unfold runMain
  rw [if_neg h1]
  show (if (gatherCharNames ((reorderFiles files).map Prod.snd)).isEmpty = true
      then _ else _ : RunOut).err = some decodeErrMsg
  rw [if_neg h2, h3]

theorem runMain_err_of_texts (files : List (String × List Char)) (fill : Bool)
    (ts : List (List Char))
    (h1 : ¬ (files.isEmpty = true))
    (h2 : ¬ ((gatherCharNames ((reorderFiles files).map Prod.snd)).isEmpty = true))
    (h3 : (extractAll (gatherCharNames ((reorderFiles files).map Prod.snd))
        (reorderFiles files)).2 = some ts) :
    (runMain files fill).err =
      if (uniqueTexts ts).isEmpty = true then some noDialogueMsg else none := by
  unfold runMain
  rw [if_neg h1]
  show (if (gatherCharNames ((reorderFiles files).map Prod.snd)).isEmpty = true
      then _ else _ : RunOut).err = _
  rw [if_neg h2, h3]
  show (if (uniqueTexts ts).isEmpty = true then _ else _ : RunOut).err = _
  by_cases h4 : (uniqueTexts ts).isEmpty = true
  · rw [if_pos h4, if_pos h4]
  · rw [if_neg h4, if_neg h4]

theorem runMain_noDialogue_iff (files : List (String × List Char)) (fill : Bool) :
    (runMain files fill).err = some noDialogueMsg ↔
      files.isEmpty = false ∧
      (gatherCharNames ((reorderFiles files).map Prod.snd)).isEmpty = false ∧
      ∃ ts, (extractAll (gatherCharNames ((reorderFiles files).map Prod.snd))
          (reorderFiles files)).2 = some ts ∧ ∀ t ∈ ts, t = [] := by
  by_cases h1 : files.isEmpty = true
  · rw [runMain_err_of_empty files fill h1]
    constructor
    · intro he
      exact absurd (Option.some.inj he) (by decide)
    · rintro ⟨hf, -⟩
      rw [h1] at hf
      exact absurd hf (by decide)
  · have h1f : files.isEmpty = false := Bool.eq_false_iff.mpr h1
    by_cases h2 : (gatherCharNames ((reorderFiles files).map Prod.snd)).isEmpty = true
    · rw [runMain_err_of_noChars files fill h1 h2]
      constructor
      · intro he
        exact absurd (Option.some.inj he) (by decide)
      · rintro ⟨-, hc, -⟩
        rw [h2] at hc
        exact absurd hc (by decide)
    · have h2f := Bool.eq_false_iff.mpr h2
      cases hex : (extractAll (gatherCharNames ((reorderFiles files).map Prod.snd))
          (reorderFiles files)).2 with
      | none =>
        rw [runMain_err_of_decodeErr files fill h1 h2 hex]
        constructor
        · intro he
          exact absurd (Option.some.inj he) (by decide)
        · rintro ⟨-, -, ts, hts, -⟩
          exact Option.noConfusion hts
      | some allTexts =>
        rw [runMain_err_of_texts files fill allTexts h1 h2 hex]
        by_cases h4 : (uniqueTexts allTexts).isEmpty = true
        · rw [if_pos h4]
          constructor
          · intro _
            exact ⟨h1f, h2f, allTexts, rfl,
              (uniqueTexts_eq_nil_iff allTexts).mp (List.isEmpty_iff.mp h4)⟩
          · intro _
            rfl
        · rw [if_neg h4]
          constructor
          · intro he
            exact Option.noConfusion he
          · rintro ⟨-, -, ts, hts, hall⟩
            have heq : allTexts = ts := Option.some.inj hts
            subst heq
            exact absurd
              (List.isEmpty_iff.mpr ((uniqueTexts_eq_nil_iff allTexts).mpr hall)) h4

/-- C4 counterexample: the claim's own scenario — a UI source containing
`label _("Start Game")` and `textbutton _("Quit")` and no script dialogue —
does not complete non-fatally: the run terminates with a fatal error (no
character definitions exist in any source, so `main` exits at the
character-definition check; and even with characters defined, the
no-extractable-text check counts only dialogue, not labels). -/
theorem label_only_run_not_nonfatal :
    (runMain [("screens.rpy",
      "label _(\"Start Game\")\ntextbutton _(\"Quit\")".toList)] false).err ≠ none := by
  decide

/-- C4 (amended): for every input file list and fill flag, the
no-extractable-text fatal condition occurs exactly when files exist,
character definitions are found, decoding succeeds, and every extracted
dialogue and menu text is empty — label text plays no part in it (first
conjunct, a biconditional over all inputs). Concretely: the label-only
scenario — a UI source with `label _("Start Game")` and
`textbutton _("Quit")` and no script dialogue — exits even earlier, at the
no-character-definitions check (second conjunct); with a character
definition added it exits with the no-dialogue error although the label
records were already written (fourth conjunct); and in both runs the
template file as written at termination has `Start Game` and `Quit` as its
first two records' sources, in that order (third and fifth conjuncts). -/
theorem no_text_fatal_counts_only_dialogue :
    (∀ (files : List (String × List Char)) (fill : Bool),
      (runMain files fill).err = some noDialogueMsg ↔
        files.isEmpty = false ∧
        (gatherCharNames ((reorderFiles files).map Prod.snd)).isEmpty = false ∧
        ∃ ts, (extractAll (gatherCharNames ((reorderFiles files).map Prod.snd))
            (reorderFiles files)).2 = some ts ∧ ∀ t ∈ ts, t = []) ∧
    (runMain [("screens.rpy",
      "label _(\"Start Game\")\ntextbutton _(\"Quit\")".toList)] false).err =
        some noCharsMsg ∧
    (payloads (pyReadlines ((runMain [("screens.rpy",
      "label _(\"Start Game\")\ntextbutton _(\"Quit\")".toList)] false).file))).take 2 =
      ["Start Game".toList, "Quit".toList] ∧
    (runMain [("screens.rpy",
      "label _(\"Start Game\")\ntextbutton _(\"Quit\")".toList),
      ("script.rpy", "define e = Character(\"Eve\")".toList)] false).err =
        some noDialogueMsg ∧
    (payloads (pyReadlines ((runMain [("screens.rpy",
      "label _(\"Start Game\")\ntextbutton _(\"Quit\")".toList),
      ("script.rpy", "define e = Character(\"Eve\")".toList)] false).file))).take 2 =
      ["Start Game".toList, "Quit".toList] := by
  refine ⟨runMain_noDialogue_iff, by decide, by decide, by decide, by decide⟩

theorem no_text_fatal_counts_only_dialogue_witness :
    (runMain [("screens.rpy",
      "label _(\"Start Game\")\ntextbutton _(\"Quit\")".toList),
      ("script.rpy", "define e = Character(\"Eve\")".toList)] false).err =
      some noDialogueMsg :=
  (no_text_fatal_counts_only_dialogue.1 [("screens.rpy",
      "label _(\"Start Game\")\ntextbutton _(\"Quit\")".toList),
      ("script.rpy", "define e = Character(\"Eve\")".toList)] false).mpr
    ⟨by decide, by decide, [], by decide, by decide⟩

theorem crlfL_cons (c : Char) (rest : List Char) :
    crlfL (c :: rest) = (if c = '\n' then ['\r', '\n'] else [c]) ++ crlfL rest := rfl

theorem crlfL_noNl (l : List Char) (h : '\n' ∉ l) : crlfL l = l := by
  induction l with
  | nil => rfl
  | cons c rest ih =>
    have hc : c ≠ '\n' := fun e => h (by rw [← e]; exact List.mem_cons_self _ _)
    rw [crlfL_cons, if_neg hc, ih fun hx => h (List.mem_cons_of_mem _ hx)]
    rfl

theorem crlfL_append (a b : List Char) : crlfL (a ++ b) = crlfL a ++ crlfL b :=
  replaceChar_append _ _ a b

theorem good_decomp (l : List Char) (hg : goodLine l) :
    ('\n' ∉ l ∧ crlfL l = l) ∨
      (l = l.dropLast ++ ['\n'] ∧ '\n' ∉ l.dropLast ∧
        crlfL l = l.dropLast ++ ['\r', '\n']) := by
  obtain ⟨hne, _, hdl⟩ := hg
  have hsplit := List.dropLast_append_getLast hne
  by_cases hlast : l.getLast hne = '\n'
  · right
    have h1 : l = l.dropLast ++ ['\n'] := by rw [← hlast, hsplit]
    refine ⟨h1, hdl, ?_⟩
    conv_lhs => rw [h1]
    rw [crlfL_append, crlfL_noNl _ hdl]
    rfl
  · left
    have h2 : '\n' ∉ l := by
      intro hmem
      conv at hmem => rw [← hsplit]
      rcases List.mem_append.mp hmem with h3 | h3
      · exact hdl h3
      · exact hlast (List.mem_singleton.mp h3).symm
    exact ⟨h2, crlfL_noNl _ h2⟩

theorem prefix_lt_shape (l : List Char) (h : List.isPrefixOf ['<', ' '] l = true) :
    ∃ r, l = '<' :: ' ' :: r := by
  cases l with
  | nil => simp [List.isPrefixOf] at h
  | cons c1 l1 =>
    cases l1 with
    | nil => simp [List.isPrefixOf] at h
    | cons c2 r =>
      simp only [List.isPrefixOf, Bool.and_eq_true, beq_iff_eq] at h
      exact ⟨r, by rw [h.1, h.2.1]⟩

theorem prefix_lt_crlfL (l : List Char) :
    List.isPrefixOf ['<', ' '] (crlfL l) = List.isPrefixOf ['<', ' '] l := by
  cases l with
  | nil => rfl
  | cons c rest =>
    rw [crlfL_cons]
    by_cases hc : c = '\n'
    · subst hc
      simp [List.isPrefixOf]
    · rw [if_neg hc]
      cases rest with
      | nil => rfl
      | cons d rest2 =>
        rw [crlfL_cons]
        by_cases hd : d = '\n'
        · subst hd
          simp [List.isPrefixOf]
        · rw [if_neg hd]
          simp [List.isPrefixOf]

theorem prefix_gt_crlfL (l : List Char) :
    List.isPrefixOf ['>'] (crlfL l) = List.isPrefixOf ['>'] l := by
  cases l with
  | nil => rfl
  | cons c rest =>
    rw [crlfL_cons]
    by_cases hc : c = '\n'
    · subst hc
      simp [List.isPrefixOf]
    · rw [if_neg hc]
      simp [List.isPrefixOf]

theorem isBlankL_crlfL (l : List Char) : isBlankL (crlfL l) = isBlankL l := by
  induction l with
  | nil => rfl
  | cons c rest ih =>
    have ih2 : (crlfL rest).all isSpaceChar = rest.all isSpaceChar := ih
    rw [crlfL_cons]
    by_cases hc : c = '\n'
    · subst hc
      simp [isBlankL, List.all_cons, ih2, show isSpaceChar '\r' = true from rfl,
        show isSpaceChar '\n' = true from rfl]
    · rw [if_neg hc]
      simp [isBlankL, List.all_cons, ih2]

theorem pyRstrip_append_ws (x ws : List Char) (h : ∀ c ∈ ws, isSpaceChar c = true) :
    pyRstrip (x ++ ws) = pyRstrip x := by
  unfold pyRstrip
  rw [List.reverse_append, dropWhile_append_all _ _ _ fun c hc =>
    h c (List.mem_reverse.mp hc)]

theorem normalizeNl_cons_noCr (c : Char) (rest : List Char) (hc : c ≠ '\r') :
    normalizeNl (c :: rest) = c :: normalizeNl rest := by
  rw [normalizeNl.eq_def]
  split
  · rename_i heq
    exact absurd heq (by simp)
  · rename_i heq
    injection heq with h1 h2
    exact absurd h1 hc
  · rename_i heq
    injection heq with h1 h2
    exact absurd h1 hc
  · rename_i heq
    injection heq with h1 h2
    rw [h1, h2]

theorem normalizeNl_noCr (s : List Char) : '\r' ∉ normalizeNl s := by
  induction s using normalizeNl.induct with
  | case1 => simp [normalizeNl]
  | case2 rest ih => simp [normalizeNl]; exact ih
  | case3 rest h ih => simp [normalizeNl]; exact ih
  | case4 c rest h1 h2 ih =>
    rw [normalizeNl_cons_noCr c rest (fun e => h2 e)]
    intro hm
    rcases List.mem_cons.mp hm with he | hm2
    · exact h2 he.symm
    · exact ih hm2

theorem payloadOf_crlfL (l : List Char) (hg : goodLine l) :
    payloadOf (crlfL l) = payloadOf l := by
  unfold payloadOf
  rw [prefix_lt_crlfL]
  by_cases hp : List.isPrefixOf ['<', ' '] l = true
  · rw [if_pos hp, if_pos hp]
    rcases good_decomp l hg with ⟨_, hcr⟩ | ⟨hdec, _, hcr⟩
    · rw [hcr]
    · obtain ⟨r, hr⟩ := prefix_lt_shape l hp
      have hb : ∃ b2, l.dropLast = '<' :: ' ' :: b2 := by
        rcases hbl : l.dropLast with _ | ⟨x, _ | ⟨y, b2⟩⟩
        · rw [hbl] at hdec
          rw [hdec] at hr
          exact absurd hr (by simp)
        · rw [hbl] at hdec
          rw [hdec] at hr
          simp only [List.cons_append, List.nil_append, List.cons.injEq] at hr
          exact absurd hr.2.1.symm (by decide)
        · rw [hbl] at hdec
          rw [hdec] at hr
          simp only [List.cons_append, List.cons.injEq] at hr
          exact ⟨b2, by rw [hr.1, hr.2.1]⟩
      obtain ⟨b2, hb2⟩ := hb
      rw [hcr, hb2]
      conv_rhs => rw [hdec, hb2]
      show some (pyRstrip (b2 ++ ['\r', '\n'])) = some (pyRstrip (b2 ++ ['\n']))
      rw [pyRstrip_append_ws b2 ['\r', '\n'] (by decide),
        pyRstrip_append_ws b2 ['\n'] (by decide)]
  · rw [if_neg hp, if_neg hp]

theorem readlinesAux_good (s : List Char) : ∀ (cur : List Char), '\r' ∉ s →
    (∀ c ∈ cur, c ≠ '\n' ∧ c ≠ '\r') →
    (∀ l ∈ readlinesAux cur s, goodLine l) ∧
      (∀ l ∈ (readlinesAux cur s).dropLast, l.getLast? = some '\n') := by
  induction s with
  | nil =>
    intro cur _ hcur
    cases cur with
    | nil => exact ⟨by simp [readlinesAux], by simp [readlinesAux]⟩
    | cons c cur2 =>
      refine ⟨?_, by simp [readlinesAux]⟩
      intro l hl
      simp only [readlinesAux, List.isEmpty_cons, List.mem_singleton, if_false,
        Bool.false_eq_true, ite_false] at hl
      subst hl
      refine ⟨by simp, ?_, ?_⟩
      · intro hm
        exact (hcur _ (List.mem_reverse.mp hm)).2 rfl
      · intro hm
        exact (hcur _ (List.mem_reverse.mp ((List.dropLast_sublist _).mem hm))).1 rfl
  | cons c rest ih =>
    intro cur hs hcur
    have hs2 : '\r' ∉ rest := fun hm => hs (List.mem_cons_of_mem _ hm)
    by_cases hc : c = '\n'
    · subst hc
      rw [show readlinesAux cur ('\n' :: rest) =
        (cur.reverse ++ ['\n']) :: readlinesAux [] rest from by simp [readlinesAux]]
      have hrec := ih [] hs2 (by simp)
      have hline : goodLine (cur.reverse ++ ['\n']) := by
        refine ⟨by simp, ?_, ?_⟩
        · intro hm
          rcases List.mem_append.mp hm with hm2 | hm2
          · exact (hcur _ (List.mem_reverse.mp hm2)).2 rfl
          · exact absurd (List.mem_singleton.mp hm2) (by decide)
        · rw [List.dropLast_concat]
          intro hm
          exact (hcur _ (List.mem_reverse.mp hm)).1 rfl
      refine ⟨?_, ?_⟩
      · intro l hl
        rcases List.mem_cons.mp hl with rfl | hl2
        · exact hline
        · exact hrec.1 l hl2
      · intro l hl
        cases hrl : readlinesAux [] rest with
        | nil => rw [hrl] at hl; simp at hl
        | cons y t =>
          rw [hrl] at hl
          rw [List.dropLast_cons₂] at hl
          rcases List.mem_cons.mp hl with rfl | hl2
          · exact List.getLast?_concat _
          · rw [← hrl] at hl2
            exact hrec.2 l hl2
    · simp only [readlinesAux, if_neg hc]
      exact ih (c :: cur) hs2 fun x hx => by
        rcases List.mem_cons.mp hx with rfl | hx2
        · exact ⟨hc, fun e => hs (by rw [← e]; exact List.mem_cons_self _ _)⟩
        · exact hcur x hx2

theorem pyReadlines_clean (c : List Char) :
    (∀ l ∈ pyReadlines c, goodLine l) ∧
      (∀ l ∈ (pyReadlines c).dropLast, l.getLast? = some '\n') := by
  unfold pyReadlines readlines
  exact readlinesAux_good _ [] (normalizeNl_noCr c) (by simp)

theorem keepTail_append (rest : List (List Char)) :
    (keepTail rest).1 ++ (keepTail rest).2 = rest := by
  cases rest with
  | nil => rfl
  | cons t rs =>
    simp only [keepTail]
    by_cases ht : List.isPrefixOf ['>'] t = true
    · rw [if_pos ht]
      simp [List.span_eq_take_drop, List.takeWhile_append_dropWhile]
    · rw [if_neg ht]
      simp [List.span_eq_take_drop, List.takeWhile_append_dropWhile]

theorem keepTail_snd_length (rest : List (List Char)) :
    (keepTail rest).2.length ≤ rest.length := by
  conv_rhs => rw [← keepTail_append rest]
  rw [List.length_append]
  omega

theorem keptLines_sublist (fuel : Nat) (seen ls : List (List Char)) :
    (keptLines fuel seen ls).Sublist ls := by
  induction fuel generalizing seen ls with
  | zero => cases ls <;> simp [keptLines]
  | succ f ih =>
    cases ls with
    | nil => simp [keptLines]
    | cons l rest =>
      by_cases hp : List.isPrefixOf ['<', ' '] l = true
      · by_cases hm : pyRstrip (l.drop 2) ∈ seen
        · simp only [keptLines, hp, hm, if_pos, if_true]
          exact ((ih _ _).trans (List.dropWhile_sublist _)).trans
            (List.sublist_cons_self _ _)
        · simp only [keptLines, hp, hm, if_true, if_neg, not_false_iff, ite_false]
          refine List.Sublist.cons₂ l ?_
          conv_rhs => rw [← keepTail_append rest]
          exact (ih _ _).append_left _
      · simp only [keptLines, hp, Bool.false_eq_true, if_false, ite_false]
        exact List.Sublist.cons₂ l (ih _ _)

theorem dedupeGo_eq_keptLines (fuel : Nat) (seen ls : List (List Char)) :
    dedupeGo fuel seen ls = (keptLines fuel seen ls).map crlfL := by
  induction fuel generalizing seen ls with
  | zero => cases ls <;> rfl
  | succ f ih =>
    cases ls with
    | nil => rfl
    | cons l rest =>
      by_cases hp : List.isPrefixOf ['<', ' '] l = true
      · by_cases hm : pyRstrip (l.drop 2) ∈ seen
        · simp only [dedupeGo, keptLines, hp, hm, if_pos, if_true]
          exact ih _ _
        · simp only [dedupeGo, keptLines, hp, hm, if_true, if_neg, not_false_iff,
            ite_false]
          rw [List.map_cons, List.map_append, ih]
      · simp only [dedupeGo, keptLines, hp, Bool.false_eq_true, if_false, ite_false]
        rw [List.map_cons, ih]

theorem gt_no_payload (l : List Char) (h : List.isPrefixOf ['>'] l = true) :
    payloadOf l = none := by
  cases l with
  | nil => simp [List.isPrefixOf] at h
  | cons c r =>
    simp only [List.isPrefixOf, Bool.and_eq_true, beq_iff_eq] at h
    unfold payloadOf
    rw [if_neg]
    rw [← h.1]
    simp [List.isPrefixOf]

theorem blank_no_payload (l : List Char) (h : isBlankL l = true) :
    payloadOf l = none := by
  unfold payloadOf
  rw [if_neg]
  intro hp
  obtain ⟨r2, hr⟩ := prefix_lt_shape _ hp
  rw [hr] at h
  simp [isBlankL, List.all_cons, isSpaceChar] at h

theorem skipP_no_payload (l : List Char) (h : skipP l = true) : payloadOf l = none := by
  simp only [skipP, Bool.or_eq_true] at h
  rcases h with h2 | h2
  · exact gt_no_payload l h2
  · exact blank_no_payload l h2

theorem payloads_append (a b : List (List Char)) :
    payloads (a ++ b) = payloads a ++ payloads b :=
  List.filterMap_append a b payloadOf

theorem payloads_none (a : List (List Char)) (h : ∀ l ∈ a, payloadOf l = none) :
    payloads a = [] :=
  List.filterMap_eq_nil_iff.mpr h

theorem keepTail_fst_none (rest : List (List Char)) :
    ∀ x ∈ (keepTail rest).1, payloadOf x = none := by
  cases rest with
  | nil => simp [keepTail]
  | cons t rs =>
    simp only [keepTail]
    by_cases ht : List.isPrefixOf ['>'] t = true
    · rw [if_pos ht]
      intro x hx
      rcases List.mem_cons.mp hx with rfl | hx2
      · exact gt_no_payload x ht
      · rw [List.span_eq_take_drop] at hx2
        exact blank_no_payload x (List.mem_takeWhile_imp hx2)
    · rw [if_neg ht]
      intro x hx
      rw [List.span_eq_take_drop] at hx
      exact blank_no_payload x (List.mem_takeWhile_imp hx)

theorem payloads_dropWhile_skipP (rest : List (List Char)) :
    payloads (rest.dropWhile skipP) = payloads rest := by
  conv_rhs => rw [← List.takeWhile_append_dropWhile (p := skipP) (l := rest)]
  rw [payloads_append,
    payloads_none _ fun x hx => skipP_no_payload x (List.mem_takeWhile_imp hx)]
  rfl

theorem payloads_keptLines (fuel : Nat) : ∀ (seen ls : List (List Char)),
    ls.length ≤ fuel → payloads (keptLines fuel seen ls) = fdA seen (payloads ls) := by
  induction fuel with
  | zero =>
    intro seen ls hf
    cases ls with
    | nil => rfl
    | cons l rest => simp at hf
  | succ f ih =>
    intro seen ls hf
    cases ls with
    | nil => rfl
    | cons l rest =>
      have hf2 : rest.length ≤ f := by
        simp only [List.length_cons] at hf
        omega
      by_cases hp : List.isPrefixOf ['<', ' '] l = true
      · have hpay : payloadOf l = some (pyRstrip (l.drop 2)) := by
          unfold payloadOf
          rw [if_pos hp]
        by_cases hm : pyRstrip (l.drop 2) ∈ seen
        · simp only [keptLines, hp, hm, if_pos, if_true]
          rw [ih seen _ (((List.dropWhile_sublist _).length_le).trans hf2),
            payloads_dropWhile_skipP]
          simp only [payloads, List.filterMap_cons, hpay]
          rw [show fdA seen (pyRstrip (l.drop 2) :: List.filterMap payloadOf rest) =
            fdA seen (List.filterMap payloadOf rest) from by simp [fdA, hm]]
        · simp only [keptLines, hp, hm, if_true, if_neg, not_false_iff, ite_false]
          have hkt2 : (keepTail rest).2.length ≤ f :=
            (keepTail_snd_length rest).trans hf2
          have hrest : payloads rest = payloads (keepTail rest).2 := by
            conv_lhs => rw [← keepTail_append rest]
            rw [payloads_append, payloads_none _ (keepTail_fst_none rest)]
            rfl
          simp only [payloads, List.filterMap_cons, hpay, List.filterMap_append]
          rw [show List.filterMap payloadOf (keepTail rest).1 = [] from
            payloads_none _ (keepTail_fst_none rest)]
          simp only [List.nil_append]
          rw [show List.filterMap payloadOf (keptLines f (pyRstrip (l.drop 2) :: seen)
            (keepTail rest).2) = payloads (keptLines f (pyRstrip (l.drop 2) :: seen)
            (keepTail rest).2) from rfl]
          rw [ih _ _ hkt2]
          rw [show fdA seen (pyRstrip (l.drop 2) :: List.filterMap payloadOf rest) =
            pyRstrip (l.drop 2) :: fdA (pyRstrip (l.drop 2) :: seen)
              (List.filterMap payloadOf rest) from by simp [fdA, hm]]
          rw [show (List.filterMap payloadOf rest : List (List Char)) =
            payloads rest from rfl, hrest]
      · have hpay : payloadOf l = none := by
          unfold payloadOf
          rw [if_neg]
          exact fun hc => hp hc
        simp only [keptLines, hp, Bool.false_eq_true, if_false, ite_false]
        simp only [payloads, List.filterMap_cons, hpay]
        exact ih seen rest hf2

theorem payloads_map_crlfL (K : List (List Char)) (hg : ∀ l ∈ K, goodLine l) :
    payloads (K.map crlfL) = payloads K := by
  induction K with
  | nil => rfl
  | cons l K2 ih =>
    simp only [List.map_cons, payloads, List.filterMap_cons,
      payloadOf_crlfL l (hg l (List.mem_cons_self _ _))]
    cases h : payloadOf l with
    | none => exact ih fun x hx => hg x (List.mem_cons_of_mem _ hx)
    | some v =>
      rw [show (List.filterMap payloadOf (K2.map crlfL) : List (List Char)) =
        payloads (K2.map crlfL) from rfl,
        ih fun x hx => hg x (List.mem_cons_of_mem _ hx)]
      rfl

/-- C2: after the deduplication pass, no two kept records have equal source
payloads (the payload list of the output is duplicate-free), and the kept
record for any payload is the first-occurring one: the output payload
sequence equals the first-occurrence deduplication of the input payload
sequence, for every file contents. -/
theorem dedupe_keeps_first_payloads (c : List Char) :
    payloads (dedupeLines (pyReadlines c)) = fdA [] (payloads (pyReadlines c)) ∧
      (payloads (dedupeLines (pyReadlines c))).Nodup := by
  have hg := (pyReadlines_clean c).1
  have h1 : payloads (dedupeLines (pyReadlines c)) =
      fdA [] (payloads (pyReadlines c)) := by
    unfold dedupeLines
    rw [dedupeGo_eq_keptLines]
    rw [payloads_map_crlfL _ fun l hl =>
      hg l ((keptLines_sublist _ _ _).mem hl)]
    exact payloads_keptLines _ _ _ le_rfl
  exact ⟨h1, h1 ▸ (fdA_nodup _ _).1⟩

theorem normalizeNl_append_noCr (a r : List Char) (ha : '\r' ∉ a) :
    normalizeNl (a ++ r) = a ++ normalizeNl r := by
  induction a with
  | nil => rfl
  | cons c as ih =>
    have hc : c ≠ '\r' := fun e => ha (by rw [← e]; exact List.mem_cons_self _ _)
    rw [List.cons_append, normalizeNl_cons_noCr _ _ hc,
      ih fun hm => ha (List.mem_cons_of_mem _ hm)]
    rfl

theorem normalize_flatten_crlf (K : List (List Char)) (hg : ∀ l ∈ K, goodLine l) :
    normalizeNl ((K.map crlfL).flatten) = K.flatten := by
  induction K with
  | nil => rfl
  | cons l K2 ih =>
    rw [List.map_cons, List.flatten_cons, List.flatten_cons]
    have hgl := hg l (List.mem_cons_self _ _)
    have ih2 := ih fun x hx => hg x (List.mem_cons_of_mem _ hx)
    rcases good_decomp l hgl with ⟨hn, hcr⟩ | ⟨hdec, hnodl, hcr⟩
    · rw [hcr, normalizeNl_append_noCr _ _ hgl.2.1, ih2]
    · rw [hcr, List.append_assoc,
        normalizeNl_append_noCr _ _
          (fun hm => hgl.2.1 ((List.dropLast_sublist _).mem hm))]
      rw [show (['\r', '\n'] : List Char) ++ (K2.map crlfL).flatten =
          '\r' :: '\n' :: (K2.map crlfL).flatten from rfl,
        show normalizeNl ('\r' :: '\n' :: (K2.map crlfL).flatten) =
          '\n' :: normalizeNl ((K2.map crlfL).flatten) from rfl, ih2]
      conv_rhs => rw [hdec]
      simp

theorem readlinesAux_noNl (b : List Char) : ∀ (cur s : List Char), '\n' ∉ b →
    readlinesAux cur (b ++ s) = readlinesAux (b.reverse ++ cur) s := by
  induction b with
  | nil => intro cur s _; rfl
  | cons c bs ih =>
    intro cur s hb
    have hc : c ≠ '\n' := fun e => hb (by rw [← e]; exact List.mem_cons_self _ _)
    rw [List.cons_append, show readlinesAux cur (c :: (bs ++ s)) =
      readlinesAux (c :: cur) (bs ++ s) from by simp [readlinesAux, hc],
      ih (c :: cur) s fun hm => hb (List.mem_cons_of_mem _ hm)]
    congr 1
    simp

theorem readlines_line_cons (b s : List Char) (hb : '\n' ∉ b) :
    readlines ((b ++ ['\n']) ++ s) = (b ++ ['\n']) :: readlines s := by
  unfold readlines
  rw [List.append_assoc, List.singleton_append, readlinesAux_noNl b [] ('\n' :: s) hb]
  simp [readlinesAux]

theorem readlines_flatten (K : List (List Char)) (hg : ∀ l ∈ K, goodLine l)
    (he : ∀ l ∈ K.dropLast, l.getLast? = some '\n') : readlines K.flatten = K := by
  induction K with
  | nil => rfl
  | cons l K2 ih =>
    have hgl := hg l (List.mem_cons_self _ _)
    rw [List.flatten_cons]
    cases K2 with
    | nil =>
      rw [List.flatten_nil, List.append_nil]
      rcases good_decomp l hgl with ⟨hn, _⟩ | ⟨hdec, hnodl, _⟩
      · unfold readlines
        rw [show (l : List Char) = l ++ [] from by simp, readlinesAux_noNl l [] [] hn]
        simp [readlinesAux, hgl.1]
      · conv_lhs => rw [hdec]
        rw [show readlines (l.dropLast ++ ['\n']) =
          readlines ((l.dropLast ++ ['\n']) ++ []) from by simp,
          readlines_line_cons _ _ hnodl]
        rw [← hdec]
        rfl
    | cons k K3 =>
      have hel : l.getLast? = some '\n' := by
        refine he l ?_
        rw [List.dropLast_cons₂]
        exact List.mem_cons_self _ _
      rcases good_decomp l hgl with ⟨hn, _⟩ | ⟨hdec, hnodl, _⟩
      · exact absurd (List.mem_of_mem_getLast? hel) hn
      · conv_lhs => rw [hdec, readlines_line_cons _ _ hnodl]
        rw [← hdec]
        refine congrArg _ (ih (fun x hx => hg x (List.mem_cons_of_mem _ hx)) ?_)
        intro x hx
        refine he x ?_
        rw [List.dropLast_cons₂]
        exact List.mem_cons_of_mem _ hx

theorem keptLines_nil (fuel : Nat) (seen : List (List Char)) :
    keptLines fuel seen [] = [] := by
  cases fuel <;> rfl

theorem hdNotP (p : List Char → Bool) (l : List (List Char)) :
    ∀ h, (l.dropWhile p).head? = some h → p h = false := by
  induction l with
  | nil => intro h hh; simp at hh
  | cons c r ih =>
    intro h hh
    by_cases hc : p c = true
    · rw [List.dropWhile_cons, if_pos hc] at hh
      exact ih h hh
    · rw [List.dropWhile_cons, if_neg hc] at hh
      simp only [List.head?_cons, Option.some.injEq] at hh
      rw [← hh]
      exact Bool.eq_false_iff.mpr hc

theorem blank_not_gt (b : List Char) (h : isBlankL b = true) :
    List.isPrefixOf ['>'] b = false := by
  cases b with
  | nil => rfl
  | cons c r =>
    simp only [isBlankL, List.all_cons, Bool.and_eq_true] at h
    simp only [List.isPrefixOf]
    by_cases hc : c = '>'
    · rw [hc] at h
      exact absurd h.1 (by decide)
    · simp [beq_eq_false_iff_ne.mpr fun e => hc e.symm]

theorem lt_head_facts (l : List Char) (hp : List.isPrefixOf ['<', ' '] l = true) :
    isBlankL l = false ∧ List.isPrefixOf ['>'] l = false := by
  obtain ⟨r, hr⟩ := prefix_lt_shape l hp
  subst hr
  exact ⟨by simp [isBlankL, List.all_cons, show isSpaceChar '<' = false from rfl],
    by simp [List.isPrefixOf]⟩

theorem keptLines_head_blank (fuel : Nat) : ∀ (seen ls : List (List Char)),
    (∀ h, ls.head? = some h → isBlankL h = false) →
    ∀ h2, (keptLines fuel seen ls).head? = some h2 → isBlankL h2 = false := by
  induction fuel with
  | zero =>
    intro seen ls _ h2 hh
    cases ls <;> simp [keptLines] at hh
  | succ f ih =>
    intro seen ls hhd h2 hh
    cases ls with
    | nil => simp [keptLines] at hh
    | cons l rest =>
      by_cases hp : List.isPrefixOf ['<', ' '] l = true
      · by_cases hm : pyRstrip (l.drop 2) ∈ seen
        · simp only [keptLines, hp, hm, if_pos, if_true] at hh
          refine ih seen _ (fun h3 hh3 => ?_) h2 hh
          have := hdNotP skipP rest h3 hh3
          simp only [skipP, Bool.or_eq_false_iff] at this
          exact this.2
        · simp only [keptLines, hp, hm, if_true, if_neg, not_false_iff, ite_false,
            List.head?_cons, Option.some.injEq] at hh
          rw [← hh]
          exact (lt_head_facts l hp).1
      · simp only [keptLines, hp, Bool.false_eq_true, if_false, ite_false,
          List.head?_cons, Option.some.injEq] at hh
        rw [← hh]
        exact hhd l rfl

theorem keptLines_head_safe (fuel : Nat) : ∀ (seen ls : List (List Char)),
    (∀ h, ls.head? = some h → isBlankL h = false ∧ List.isPrefixOf ['>'] h = false) →
    ∀ h2, (keptLines fuel seen ls).head? = some h2 →
      isBlankL h2 = false ∧ List.isPrefixOf ['>'] h2 = false := by
  induction fuel with
  | zero =>
    intro seen ls _ h2 hh
    cases ls <;> simp [keptLines] at hh
  | succ f ih =>
    intro seen ls hhd h2 hh
    cases ls with
    | nil => simp [keptLines] at hh
    | cons l rest =>
      by_cases hp : List.isPrefixOf ['<', ' '] l = true
      · by_cases hm : pyRstrip (l.drop 2) ∈ seen
        · simp only [keptLines, hp, hm, if_pos, if_true] at hh
          refine ih seen _ (fun h3 hh3 => ?_) h2 hh
          have := hdNotP skipP rest h3 hh3
          simp only [skipP, Bool.or_eq_false_iff] at this
          exact ⟨this.2, this.1⟩
        · simp only [keptLines, hp, hm, if_true, if_neg, not_false_iff, ite_false,
            List.head?_cons, Option.some.injEq] at hh
          rw [← hh]
          exact lt_head_facts l hp
      · simp only [keptLines, hp, Bool.false_eq_true, if_false, ite_false,
          List.head?_cons, Option.some.injEq] at hh
        rw [← hh]
        exact hhd l rfl

theorem spanBlank_append_exact (a b : List (List Char))
    (ha : ∀ x ∈ a, isBlankL x = true)
    (hb : ∀ h, b.head? = some h → isBlankL h = false) :
    (a ++ b).takeWhile isBlankL = a ∧ (a ++ b).dropWhile isBlankL = b := by
  induction a with
  | nil =>
    cases b with
    | nil => exact ⟨rfl, rfl⟩
    | cons h t =>
      have := hb h rfl
      simp [List.takeWhile_cons, List.dropWhile_cons, this]
  | cons x xs ih =>
    have hx := ha x (List.mem_cons_self _ _)
    have ih2 := ih fun y hy => ha y (List.mem_cons_of_mem _ hy)
    simp only [List.cons_append, List.takeWhile_cons, List.dropWhile_cons, hx, if_true,
      ih2.1, ih2.2]
    exact ⟨trivial, trivial⟩

theorem keepTail_exact (f : Nat) (seen : List (List Char)) (rest : List (List Char)) :
    keepTail ((keepTail rest).1 ++ keptLines f seen (keepTail rest).2) =
      ((keepTail rest).1, keptLines f seen (keepTail rest).2) := by
  cases rest with
  | nil => simp [keepTail, keptLines_nil]
  | cons t rs =>
    simp only [keepTail, List.span_eq_take_drop]
    by_cases ht : List.isPrefixOf ['>'] t = true
    · rw [if_pos ht]
      simp only [List.cons_append]
      have hsp := spanBlank_append_exact (rs.takeWhile isBlankL)
        (keptLines f seen (rs.dropWhile isBlankL))
        (fun x hx => List.mem_takeWhile_imp hx)
        (keptLines_head_blank f seen _ (hdNotP isBlankL rs))
      rw [if_pos ht, hsp.1, hsp.2]
    · rw [if_neg ht]
      by_cases hbt : isBlankL t = true
      · simp only [List.takeWhile_cons, List.dropWhile_cons, hbt, if_true,
          List.cons_append]
        have hgt2 : ¬ (List.isPrefixOf ['>'] t = true) := by
          rw [blank_not_gt t hbt]
          simp
        rw [if_neg hgt2]
        have hsp := spanBlank_append_exact (rs.takeWhile isBlankL)
          (keptLines f seen (rs.dropWhile isBlankL))
          (fun x hx => List.mem_takeWhile_imp hx)
          (keptLines_head_blank f seen _ (hdNotP isBlankL rs))
        simp only [List.takeWhile_cons, List.dropWhile_cons, hbt, if_true, hsp.1, hsp.2]
      · have hbt2 : isBlankL t = false := Bool.eq_false_iff.mpr hbt
        simp only [List.takeWhile_cons, List.dropWhile_cons, hbt2, Bool.false_eq_true,
          if_false, ite_false, List.nil_append]
        cases hK : keptLines f seen (t :: rs) with
        | nil => rfl
        | cons k K2 =>
          have hsafe := keptLines_head_safe f seen (t :: rs)
            (fun h hh => by
              simp only [List.head?_cons, Option.some.injEq] at hh
              rw [← hh]
              exact ⟨hbt2, Bool.eq_false_iff.mpr ht⟩)
            k (by rw [hK]; rfl)
          simp only [keepTail, List.span_eq_take_drop]
          have hkgt : ¬ (List.isPrefixOf ['>'] k = true) := by
            rw [hsafe.2]
            simp
          rw [if_neg hkgt]
          simp only [List.takeWhile_cons, List.dropWhile_cons, hsafe.1,
            Bool.false_eq_true, if_false, ite_false]

theorem keptLines_idem (fuel : Nat) : ∀ (fuel2 : Nat) (seen ls : List (List Char)),
    ls.length ≤ fuel → (keptLines fuel seen ls).length ≤ fuel2 →
    keptLines fuel2 seen (keptLines fuel seen ls) = keptLines fuel seen ls := by
  induction fuel with
  | zero =>
    intro fuel2 seen ls h1 _
    cases ls with
    | nil => exact keptLines_nil _ _
    | cons l rest => simp at h1
  | succ f ih =>
    intro fuel2 seen ls h1 h2
    cases ls with
    | nil => exact keptLines_nil _ _
    | cons l rest =>
      have hrest : rest.length ≤ f := by
        simp only [List.length_cons] at h1
        omega
      by_cases hp : List.isPrefixOf ['<', ' '] l = true
      · by_cases hm : pyRstrip (l.drop 2) ∈ seen
        · simp only [keptLines, hp, hm, if_pos, if_true] at h2 ⊢
          exact ih fuel2 seen _
            (((List.dropWhile_sublist _).length_le).trans hrest) h2
        · simp only [keptLines, hp, hm, if_true, if_neg, not_false_iff, ite_false]
            at h2 ⊢
          have hlen : ((keepTail rest).1 ++
              keptLines f (pyRstrip (l.drop 2) :: seen) (keepTail rest).2).length + 1
                ≤ fuel2 := by
            simpa using h2
          cases fuel2 with
          | zero => omega
          | succ f2 =>
            simp only [keptLines, hp, hm, if_true, if_neg, not_false_iff, ite_false]
            rw [keepTail_exact]
            refine congrArg _ (congrArg _ (ih f2 _ _
              ((keepTail_snd_length rest).trans hrest) ?_))
            rw [List.length_append] at hlen
            omega
      · simp only [keptLines, hp, Bool.false_eq_true, if_false, ite_false] at h2 ⊢
        cases fuel2 with
        | zero => simp at h2
        | succ f2 =>
          simp only [keptLines, hp, Bool.false_eq_true, if_false, ite_false]
          refine congrArg _ (ih f2 seen rest hrest ?_)
          simp only [List.length_cons] at h2
          omega

/-- C3: the deduplication pass is idempotent on file contents: running
`deduplicate_rpt` twice produces a file identical to running it once, for
every input file. The pass reads in universal-newline mode (`\r\n` becomes
`\n`), so the carriage returns it writes are folded back on the second read,
and a deduplicated file passes through unchanged. -/
theorem dedupe_rpt_idempotent (c : List Char) :
    dedupeFile (dedupeFile c) = dedupeFile c := by
  have hclean := pyReadlines_clean c
  have hKsub : (keptLines (pyReadlines c).length [] (pyReadlines c)).Sublist
      (pyReadlines c) := keptLines_sublist _ _ _
  have hKgood : ∀ l ∈ keptLines (pyReadlines c).length [] (pyReadlines c),
      goodLine l := fun l hl => hclean.1 l (hKsub.mem hl)
  have hKends : ∀ l ∈ (keptLines (pyReadlines c).length [] (pyReadlines c)).dropLast,
      l.getLast? = some '\n' := by
    by_cases hLnil : pyReadlines c = []
    · rw [hLnil]
      simp [keptLines_nil]
    · have hKsub2 : (keptLines (pyReadlines c).length [] (pyReadlines c)).Sublist
          ((pyReadlines c).dropLast ++ [(pyReadlines c).getLast hLnil]) := by
        rw [List.dropLast_append_getLast hLnil]
        exact hKsub
      obtain ⟨a, b, hab, ha, hb⟩ := List.sublist_append_iff.mp hKsub2
      rcases List.sublist_singleton.mp hb with rfl | rfl
      · intro x hx
        refine hclean.2 x ?_
        rw [hab] at hx
        simp only [List.append_nil] at hx
        exact ha.mem ((List.dropLast_sublist _).mem hx)
      · intro x hx
        rw [hab, List.dropLast_concat] at hx
        exact hclean.2 x (ha.mem hx)
  have h1 : dedupeFile c =
      ((keptLines (pyReadlines c).length [] (pyReadlines c)).map crlfL).flatten := by
    unfold dedupeFile dedupeLines
    rw [dedupeGo_eq_keptLines]
  have h2 : pyReadlines (dedupeFile c) =
      keptLines (pyReadlines c).length [] (pyReadlines c) := by
    rw [h1]
    show readlines (normalizeNl ((List.map crlfL
      (keptLines (pyReadlines c).length [] (pyReadlines c))).flatten)) = _
    rw [normalize_flatten_crlf _ hKgood]
    exact readlines_flatten _ hKgood hKends
  calc dedupeFile (dedupeFile c)
      = (dedupeGo (pyReadlines (dedupeFile c)).length []
          (pyReadlines (dedupeFile c))).flatten := rfl
    _ = ((keptLines (pyReadlines (dedupeFile c)).length []
          (pyReadlines (dedupeFile c))).map crlfL).flatten := by
        rw [dedupeGo_eq_keptLines]
    _ = ((keptLines (pyReadlines c).length [] (pyReadlines c)).map crlfL).flatten := by
        rw [h2, keptLines_idem (pyReadlines c).length _ [] (pyReadlines c) le_rfl le_rfl]
    _ = dedupeFile c := h1.symm
